import Mathlib

/-!
Shallow embedding of the adaptive item-selection scheduler of the
uke-flashcards repository, together with proofs checking the claims of its
specification against the code.

Sources embedded:
- `src/lib/questionStats.ts` : confidence classifier, phase detector,
  categorization (shared by the questions and q-codes routes);
- `src/app/api/questions/next/route.ts` : the next-question route (coverage
  sequencer, weighted selector);
- `src/app/api/q-codes/next/route.ts` : the next-q-code route (same shape,
  with two extra cooling-ignoring fallbacks);
- the sessions route (`selectQuestionsFromPool`, `PATCH`) and the study page
  session summary (pass threshold).

Modelling conventions: machine numbers are `Nat`/`ℚ` (JS floating point is
modelled by exact rationals); every call of `Math.random()` is one value
`r : ℚ` with `0 ≤ r < 1` (passed explicitly, one parameter per draw site, a
stream `Nat → ℚ` for the shuffle loop); JS `Map`/SQL lookup is a function
into `Option`; a JS `Set` accumulated in insertion order is a duplicate-free
`List`; `localeCompare` on SQLite timestamp strings is lexicographic
comparison of their character lists.
-/

/-- The five confidence levels of `questionStats.ts`. -/
inductive ConfidenceLevel where
  | unseen
  | weak
  | learning
  | strong
  | mastered
deriving DecidableEq, Repr

/-- Per-item statistics as produced by `getQuestionStats` (questionStats.ts). -/
structure QuestionStats where
  questionId : String
  totalAttempts : Nat
  correctAttempts : Nat
  lastAttemptAt : Option String
  lastWasCorrect : Option Bool
  confidenceLevel : ConfidenceLevel
  accuracy : ℚ
deriving DecidableEq, Repr

/-- `computeConfidenceLevel` of `questionStats.ts` (lines 33-61): the rule
cascade over `(totalAttempts, correctAttempts, lastWasCorrect)`, first match
wins; accuracy is `correctAttempts / totalAttempts * 100`. -/
def computeConfidenceLevel (totalAttempts correctAttempts : Nat)
    (lastWasCorrect : Option Bool) : ConfidenceLevel :=
  if totalAttempts = 0 then .unseen
  else
    let accuracy : ℚ := (correctAttempts : ℚ) / (totalAttempts : ℚ) * 100
    if accuracy = 100 ∧ totalAttempts ≥ 3 then .mastered
    else if lastWasCorrect = some false ∨ accuracy < 50 then .weak
    else if accuracy > 80 ∧ totalAttempts ≥ 2 then .strong
    else .learning

/-- One row of `getQuestionStats` (questionStats.ts lines 87-102): the stats
record built from the SQL aggregate; `lastWasCorrect` is `last_was_correct
=== 1`, the confidence level is computed by `computeConfidenceLevel`. -/
def mkQuestionStats (questionId : String) (totalAttempts correctAttempts : Nat)
    (lastAttemptAt : String) (lastWasCorrect01 : Nat) : QuestionStats :=
  let lastWasCorrect := lastWasCorrect01 = 1
  { questionId := questionId
    totalAttempts := totalAttempts
    correctAttempts := correctAttempts
    lastAttemptAt := some lastAttemptAt
    lastWasCorrect := some lastWasCorrect
    confidenceLevel := computeConfidenceLevel totalAttempts correctAttempts (some lastWasCorrect)
    accuracy := if totalAttempts > 0 then (correctAttempts : ℚ) / (totalAttempts : ℚ) * 100 else 0 }

/-- The confidence level the selection code reads for an id: the stored
level when stats exist, `unseen` otherwise (the `stats ? stats.confidenceLevel
: 'unseen'` pattern of `categorizeQuestions`). -/
def levelOf (statsMap : String → Option QuestionStats) (id : String) : ConfidenceLevel :=
  match statsMap id with
  | some st => st.confidenceLevel
  | none => .unseen

/-- The global study phase (`determinePhase`, questionStats.ts lines 114-139). -/
inductive Phase where
  | coverage
  | drilling
  | mastered
deriving DecidableEq, Repr

/-- `determinePhase` of `questionStats.ts`: count ids without stats (unseen)
and ids whose stored level is `mastered`; `coverage` if any unseen, else
`mastered` if every id counted mastered, else `drilling`. -/
def determinePhase (questionIds : List String)
    (statsMap : String → Option QuestionStats) : Phase :=
  let unseenCount := questionIds.countP (fun id => decide (statsMap id = none))
  let masteredCount := questionIds.countP (fun id =>
    match statsMap id with
    | some st => decide (st.confidenceLevel = .mastered)
    | none => false)
  if unseenCount > 0 then .coverage
  else if masteredCount = questionIds.length then .mastered
  else .drilling

/-- The five buckets of `categorizeQuestions` (questionStats.ts lines 144-163). -/
structure Categorized where
  unseen : List String
  weak : List String
  learning : List String
  strong : List String
  mastered : List String
deriving DecidableEq, Repr

/-- `categorizeQuestions` of `questionStats.ts`: push each id, in input
order, into the bucket of its (stored or `unseen`) confidence level. -/
def categorizeQuestions (questionIds : List String)
    (statsMap : String → Option QuestionStats) : Categorized where
  unseen := questionIds.filter (fun id => decide (levelOf statsMap id = .unseen))
  weak := questionIds.filter (fun id => decide (levelOf statsMap id = .weak))
  learning := questionIds.filter (fun id => decide (levelOf statsMap id = .learning))
  strong := questionIds.filter (fun id => decide (levelOf statsMap id = .strong))
  mastered := questionIds.filter (fun id => decide (levelOf statsMap id = .mastered))

/-- A study item as the routes use it: its id and its section tag. -/
structure Question where
  id : String
  sec : String
deriving DecidableEq, Repr

/-- Swap two positions of a list (one step of the in-place Fisher-Yates
shuffle `[arr[i], arr[j]] = [arr[j], arr[i]]`). -/
def listSwap {α : Type} (l : List α) (i j : Nat) : List α :=
  match l.get? i, l.get? j with
  | some a, some b => (l.set i b).set j a
  | _, _ => l

/-- The Fisher-Yates loop body: `i` runs downward to 1, each step draws
`j = Math.floor(Math.random() * (i + 1))` (the k-th draw of the stream) and
swaps positions `i` and `j`. -/
def fisherYatesAux {α : Type} (rng : Nat → ℚ) : Nat → Nat → List α → List α
  | _, 0, l => l
  | k, i + 1, l =>
    let j := (⌊rng k * ((i + 1 : Nat) + 1 : ℚ)⌋).toNat
    fisherYatesAux rng (k + 1) i (listSwap l (i + 1) j)

/-- The Fisher-Yates shuffle of `route.ts` (lines 121-124): iterate from
`length - 1` down to `1`. -/
def fisherYates {α : Type} (l : List α) (rng : Nat → ℚ) : List α :=
  fisherYatesAux rng 0 (l.length - 1) l

/-- The coverage-phase scan of `questions/next/route.ts` (lines 129-140):
walk `shuffledOrder` forward from `currentIndex`; skip ids in the exclusion
set and ids not found in the available pool; return the first hit together
with the index where it was found. -/
def coverageScan (qs : List Question) (order : List String) (excl : List String) :
    Nat → Option (Question × Nat)
  | idx =>
    if h : idx < order.length then
      let qId := order.get ⟨idx, h⟩
      if qId ∈ excl then coverageScan qs order excl (idx + 1)
      else
        match qs.find? (fun q => decide (q.id = qId)) with
        | some q => some (q, idx)
        | none => coverageScan qs order excl (idx + 1)
    else none
termination_by idx => order.length - idx

/-- Static selection weights of `questions/next/route.ts` (lines 19-23). -/
def SELECTION_WEIGHTS_weak : ℚ := 70

/-- Static selection weight for `learning` items. -/
def SELECTION_WEIGHTS_learning : ℚ := 25

/-- Static selection weight for `strong` items. -/
def SELECTION_WEIGHTS_strong : ℚ := 5

/-- The `weak.sort` comparator of `selectWeightedQuestion` (route.ts lines
219-225): most recent `lastAttemptAt` first (`timeB.localeCompare(timeA)`,
missing stats giving the empty string); `localeCompare` on timestamp strings
is modelled as lexicographic comparison of the character lists. -/
def weakSortLe (statsMap : String → Option QuestionStats) (a b : String) : Bool :=
  let timeA := ((statsMap a).bind (fun st => st.lastAttemptAt)).getD ""
  let timeB := ((statsMap b).bind (fun st => st.lastAttemptAt)).getD ""
  decide (timeB.data ≤ timeA.data)

/-- The weighted pool of `selectWeightedQuestion` (route.ts lines 208-238):
categorize the pool ids, drop excluded ids from the `weak`, `learning` and
`strong` buckets (mastered and unseen are never in the pool), sort the weak
bucket most-recent-attempt-first, then list ids with their static weights. -/
def weightedPool (qs : List Question) (statsMap : String → Option QuestionStats)
    (excl : List String) : List (String × ℚ) :=
  let categories := categorizeQuestions (qs.map (fun q => q.id)) statsMap
  let weak := (categories.weak.filter (fun id => decide (id ∉ excl))).mergeSort
    (weakSortLe statsMap)
  let learning := categories.learning.filter (fun id => decide (id ∉ excl))
  let strong := categories.strong.filter (fun id => decide (id ∉ excl))
  weak.map (fun id => (id, SELECTION_WEIGHTS_weak))
    ++ learning.map (fun id => (id, SELECTION_WEIGHTS_learning))
    ++ strong.map (fun id => (id, SELECTION_WEIGHTS_strong))

/-- The cumulative-weight draw loop of `selectWeightedQuestion` (route.ts
lines 248-253): subtract each weight from the running draw and stop at the
first item where it is no longer positive. -/
def drawLoop : List (String × ℚ) → ℚ → Option String
  | [], _ => none
  | (id, w) :: rest, random =>
    if random - w ≤ 0 then some id else drawLoop rest (random - w)

/-- `selectWeightedQuestion` of `questions/next/route.ts` (lines 203-257):
build the weighted pool, return `null` when it is empty, otherwise draw
`random = r * totalWeight` through the loop, falling back to the pool's
first item if the loop runs out. -/
def selectWeightedQuestion (qs : List Question)
    (statsMap : String → Option QuestionStats) (excl : List String) (r : ℚ) :
    Option Question :=
  match weightedPool qs statsMap excl with
  | [] => none
  | first :: rest =>
    let pool := first :: rest
    let totalWeight := (pool.map (fun p => p.2)).sum
    match drawLoop pool (r * totalWeight) with
    | some id => qs.find? (fun q => decide (q.id = id))
    | none => qs.find? (fun q => decide (q.id = first.1))

/-- Result of one next-question request, keeping the selection-relevant
fields of the JSON response: the 400 error, the `question: null` +
`phase: 'mastered'` response, or a selected question with the returned
coverage cursor (`shuffledOrder`, `currentIndex`) when one was advanced. -/
inductive NextResult where
  | error (status : Nat)
  | masteredOut
  | selected (q : Question) (newOrder : Option (List String)) (newIndex : Option Nat)
deriving DecidableEq, Repr

/-- The coverage-phase block of `questions/next/route.ts` (lines 108-157):
use the supplied cursor or generate a fresh shuffle of the unseen ids; scan
forward; on exhaustion, if the phase is still `coverage`, pick uniformly
from the unseen ids not excluded — this route has no further fallback when
every unseen id is excluded. Returns the selected question and the cursor
to report back. -/
def questionsCoverage (qs : List Question) (ids : List String)
    (statsMap : String → Option QuestionStats) (excl : List String)
    (orderParam : Option (List String × Nat)) (rng : Nat → ℚ) (rF : ℚ) :
    Option Question × Option (List String) × Option Nat :=
  let cursor := match orderParam with
    | some c => c
    | none => (fisherYates (categorizeQuestions ids statsMap).unseen rng, 0)
  match coverageScan qs cursor.1 excl cursor.2 with
  | some (q, foundIdx) => (some q, some cursor.1, some (foundIdx + 1))
  | none =>
    if determinePhase ids statsMap = .coverage then
      let unseen := (categorizeQuestions ids statsMap).unseen
      if unseen.length > 0 then
        let unseenNotExcluded := unseen.filter (fun id => decide (id ∉ excl))
        if unseenNotExcluded.length > 0 then
          let randomIndex := (⌊rF * (unseenNotExcluded.length : ℚ)⌋).toNat
          (qs.find? (fun q => decide (q.id = unseenNotExcluded.getD randomIndex "")),
            none, none)
        else (none, none, none)
      else (none, none, none)
    else (none, none, none)

/-- `GET /api/questions/next` (route.ts lines 42-197), from the point where
the cooling exclusion set has been assembled: filter the catalog by section
(400 when empty), determine the phase (the forced phase winning), run the
coverage block in the coverage phase, fall through to the weighted selector
in the drilling phase or when coverage selected nothing, and answer
`masteredOut` when the phase is `mastered` or nothing was selected. -/
def nextQuestionRoute (allQuestions : List Question) (sec : Option String)
    (statsMap : String → Option QuestionStats) (excl : List String)
    (forcePhase : Option Phase) (orderParam : Option (List String × Nat))
    (rng : Nat → ℚ) (rF rW : ℚ) : NextResult :=
  let availableQuestions := match sec with
    | some s => allQuestions.filter (fun q => decide (q.sec = s))
    | none => allQuestions
  if availableQuestions.length = 0 then .error 400
  else
    let questionIds := availableQuestions.map (fun q => q.id)
    let computedPhase := determinePhase questionIds statsMap
    let phase := forcePhase.getD computedPhase
    let cov := if phase = .coverage then
        questionsCoverage availableQuestions questionIds statsMap excl orderParam rng rF
      else (none, none, none)
    let selected := if phase = .drilling ∨ (phase = .coverage ∧ cov.1 = none) then
        selectWeightedQuestion availableQuestions statsMap excl rW
      else cov.1
    if phase = .mastered then .masteredOut
    else
      match selected with
      | none => .masteredOut
      | some q => .selected q cov.2.1 cov.2.2

/-- A Q code as `q-codes/next/route.ts` uses it: only the id matters to
selection. -/
structure QCode where
  id : String
deriving DecidableEq, Repr

/-- The coverage-phase scan of the q-codes route (identical shape). -/
def coverageScanQ (qs : List QCode) (order : List String) (excl : List String) :
    Nat → Option (QCode × Nat)
  | idx =>
    if h : idx < order.length then
      let qId := order.get ⟨idx, h⟩
      if qId ∈ excl then coverageScanQ qs order excl (idx + 1)
      else
        match qs.find? (fun q => decide (q.id = qId)) with
        | some q => some (q, idx)
        | none => coverageScanQ qs order excl (idx + 1)
    else none
termination_by idx => order.length - idx

/-- The weighted pool of `selectWeightedQCode` (q-codes route lines
199-232): same buckets and weights as the questions route but without the
most-recent-first sort of the weak bucket. -/
def weightedPoolQ (qs : List QCode) (statsMap : String → Option QuestionStats)
    (excl : List String) : List (String × ℚ) :=
  let categories := categorizeQuestions (qs.map (fun q => q.id)) statsMap
  let weak := categories.weak.filter (fun id => decide (id ∉ excl))
  let learning := categories.learning.filter (fun id => decide (id ∉ excl))
  let strong := categories.strong.filter (fun id => decide (id ∉ excl))
  weak.map (fun id => (id, SELECTION_WEIGHTS_weak))
    ++ learning.map (fun id => (id, SELECTION_WEIGHTS_learning))
    ++ strong.map (fun id => (id, SELECTION_WEIGHTS_strong))

/-- `selectWeightedQCode` of `q-codes/next/route.ts` (lines 194-251). -/
def selectWeightedQCode (qs : List QCode)
    (statsMap : String → Option QuestionStats) (excl : List String) (r : ℚ) :
    Option QCode :=
  match weightedPoolQ qs statsMap excl with
  | [] => none
  | first :: rest =>
    let pool := first :: rest
    let totalWeight := (pool.map (fun p => p.2)).sum
    match drawLoop pool (r * totalWeight) with
    | some id => qs.find? (fun q => decide (q.id = id))
    | none => qs.find? (fun q => decide (q.id = first.1))

/-- Result of one next-q-code request (this route has no section filter and
no 400 path). -/
inductive QNextResult where
  | masteredOut
  | selected (q : QCode) (newOrder : Option (List String)) (newIndex : Option Nat)
deriving DecidableEq, Repr

/-- The coverage block of `q-codes/next/route.ts` (lines 101-150): as in the
questions route, but with the final fallback of lines 143-147 — when every
unseen id is excluded, pick uniformly from the full unseen list, ignoring
cooling. -/
def qcodesCoverage (qs : List QCode) (ids : List String)
    (statsMap : String → Option QuestionStats) (excl : List String)
    (orderParam : Option (List String × Nat)) (rng : Nat → ℚ) (rF : ℚ) :
    Option QCode × Option (List String) × Option Nat :=
  let cursor := match orderParam with
    | some c => c
    | none => (fisherYates (categorizeQuestions ids statsMap).unseen rng, 0)
  match coverageScanQ qs cursor.1 excl cursor.2 with
  | some (q, foundIdx) => (some q, some cursor.1, some (foundIdx + 1))
  | none =>
    let unseen := (categorizeQuestions ids statsMap).unseen
    if unseen.length > 0 then
      let unseenNotExcluded := unseen.filter (fun id => decide (id ∉ excl))
      if unseenNotExcluded.length > 0 then
        let randomIndex := (⌊rF * (unseenNotExcluded.length : ℚ)⌋).toNat
        (qs.find? (fun q => decide (q.id = unseenNotExcluded.getD randomIndex "")),
          none, none)
      else
        let randomIndex := (⌊rF * (unseen.length : ℚ)⌋).toNat
        (qs.find? (fun q => decide (q.id = unseen.getD randomIndex "")),
          none, none)
    else (none, none, none)

/-- `GET /api/q-codes/next` (q-codes route lines 40-188), from the point
where the cooling exclusion set has been assembled: early `masteredOut` when
the phase is `mastered`; the coverage block in the coverage phase; in the
drilling phase, or when coverage selected nothing, the weighted selector —
retried with an empty exclusion set when it returns nothing (lines 156-159);
`masteredOut` only if still nothing. -/
def qCodesNextRoute (qs : List QCode) (statsMap : String → Option QuestionStats)
    (excl : List String) (orderParam : Option (List String × Nat))
    (rng : Nat → ℚ) (rF rW1 rW2 : ℚ) : QNextResult :=
  let ids := qs.map (fun q => q.id)
  let phase := determinePhase ids statsMap
  if phase = .mastered then .masteredOut
  else
    let cov := if phase = .coverage then
        qcodesCoverage qs ids statsMap excl orderParam rng rF
      else (none, none, none)
    let selected := if phase = .drilling ∨ (phase = .coverage ∧ cov.1 = none) then
        match selectWeightedQCode qs statsMap excl rW1 with
        | some q => some q
        | none => selectWeightedQCode qs statsMap [] rW2
      else cov.1
    match selected with
    | none => .masteredOut
    | some q => .selected q cov.2.1 cov.2.2

/-- One row of the sessions route's attempt aggregate (`AttemptStats` of the
sessions route): per-question totals plus whether the latest attempt was
wrong. -/
structure SessAttemptStats where
  question_id : String
  total_attempts : Nat
  correct_attempts : Nat
  last_attempt_at : String
  last_was_wrong : Bool
deriving DecidableEq, Repr

/-- The never-seen bucket of `selectQuestionsFromPool`: pool ids without a
stats row, in pool order. -/
def neverSeenOf (questionPool : List String)
    (statsMap : String → Option SessAttemptStats) : List String :=
  questionPool.filter (fun qId => decide (statsMap qId = none))

/-- The least-answered bucket of `selectQuestionsFromPool`: every pool id
with a stats row, paired with its attempt count, in pool order. -/
def leastAnsweredOf (questionPool : List String)
    (statsMap : String → Option SessAttemptStats) : List (String × Nat) :=
  questionPool.filterMap (fun qId =>
    (statsMap qId).map (fun st => (qId, st.total_attempts)))

/-- The wrong-answers bucket of `selectQuestionsFromPool`: pool ids whose
latest attempt was wrong (`isRecentWrong`), or with some historical wrong
attempt (`total > correct`), with their last-attempt timestamp. -/
def wrongAnswersOf (questionPool : List String)
    (statsMap : String → Option SessAttemptStats) :
    List (String × String × Bool) :=
  questionPool.filterMap (fun qId =>
    match statsMap qId with
    | none => none
    | some st =>
      if st.last_was_wrong then some (qId, st.last_attempt_at, true)
      else if st.total_attempts > st.correct_attempts then
        some (qId, st.last_attempt_at, false)
      else none)

/-- The wrong-answers comparator (sessions route lines 54-59): recent
failures first, ties by last-attempt timestamp descending (`localeCompare`
modelled lexicographically). -/
def wrongSortLe (a b : String × String × Bool) : Bool :=
  if a.2.2 ≠ b.2.2 then a.2.2 else decide (b.2.1.data ≤ a.2.1.data)

/-- The quota-respecting fill loop shared by every stage of
`selectQuestionsFromPool`: walk the candidate list, stop once the selection
reaches the target, and add each id not already selected (a JS `Set` in
insertion order). -/
def fillFrom (target : Nat) : List String → List String → List String
  | sel, [] => sel
  | sel, x :: xs =>
    if sel.length ≥ target then sel
    else if x ∈ sel then fillFrom target sel xs
    else fillFrom target (sel ++ [x]) xs

/-- `selectQuestionsFromPool` of the sessions route (lines 20-101): fill the
quota from never-seen ids (pool order), then ids sorted by ascending attempt
count, then wrong answers sorted recent-failure-first, then — only if the
quota is still unmet — from a Fisher-Yates shuffle of the whole pool. -/
def selectQuestionsFromPool (questionPool : List String)
    (statsMap : String → Option SessAttemptStats) (targetCount : Nat)
    (rng : Nat → ℚ) : List String :=
  let neverSeen := neverSeenOf questionPool statsMap
  let leastAnswered := (leastAnsweredOf questionPool statsMap).mergeSort
    (fun a b => decide (a.2 ≤ b.2))
  let wrongAnswers := (wrongAnswersOf questionPool statsMap).mergeSort wrongSortLe
  let s1 := fillFrom targetCount [] neverSeen
  let s2 := fillFrom targetCount s1 (leastAnswered.map (fun p => p.1))
  let s3 := fillFrom targetCount s2 (wrongAnswers.map (fun p => p.1))
  if s3.length < targetCount then
    fillFrom targetCount s3 (fisherYates questionPool rng)
  else s3

/-- Modelled from the spec: the same cascade with stage 1 as §4.6 words it —
"Never-attempted items, in random order" — i.e. the never-seen bucket is
shuffled before filling, everything else unchanged. Used to compare the
spec's wording against `selectQuestionsFromPool`, whose stage 1 keeps pool
order. -/
def selectQuestionsFromPoolSpecOrder (questionPool : List String)
    (statsMap : String → Option SessAttemptStats) (targetCount : Nat)
    (rng : Nat → ℚ) : List String :=
  let neverSeen := fisherYates (neverSeenOf questionPool statsMap) rng
  let leastAnswered := (leastAnsweredOf questionPool statsMap).mergeSort
    (fun a b => decide (a.2 ≤ b.2))
  let wrongAnswers := (wrongAnswersOf questionPool statsMap).mergeSort wrongSortLe
  let s1 := fillFrom targetCount [] neverSeen
  let s2 := fillFrom targetCount s1 (leastAnswered.map (fun p => p.1))
  let s3 := fillFrom targetCount s2 (wrongAnswers.map (fun p => p.1))
  if s3.length < targetCount then
    fillFrom targetCount s3 (fisherYates questionPool rng)
  else s3

/-- One attempt row of a completed session as the `PATCH /api/sessions`
breakdown query reads it. -/
structure SessionAttempt where
  questionId : String
  isCorrect : Bool
deriving DecidableEq, Repr

/-- The per-section tallies of `PATCH /api/sessions` (lines 260-273): walk
the session's attempts, look each question up in the catalog (unknown ids
are skipped), and accumulate `{total, correct}` per section in first-seen
order. -/
def sectionTallies (catalog : List Question) :
    List SessionAttempt → List (String × Nat × Nat) → List (String × Nat × Nat)
  | [], acc => acc
  | a :: rest, acc =>
    match catalog.find? (fun q => decide (q.id = a.questionId)) with
    | none => sectionTallies catalog rest acc
    | some q =>
      let upd := if (acc.find? (fun e => decide (e.1 = q.sec))).isSome then
          acc.map (fun e =>
            if e.1 = q.sec then
              (e.1, e.2.1 + 1, e.2.2 + (if a.isCorrect then 1 else 0))
            else e)
        else acc ++ [(q.sec, 1, if a.isCorrect then 1 else 0)]
      sectionTallies catalog rest upd

/-- The response of `PATCH /api/sessions` (lines 275-284): overall totals
from the SQL aggregate (`total = COUNT(*)`, `correct = SUM(is_correct)`,
`incorrect = total - correct`) plus the per-section tallies. -/
structure SessionCompleteOut where
  total : Nat
  correct : Nat
  incorrect : Nat
  bySection : List (String × Nat × Nat)
deriving DecidableEq, Repr

/-- `PATCH /api/sessions` aggregation over the session's attempt rows. -/
def patchSessionComplete (catalog : List Question)
    (attempts : List SessionAttempt) : SessionCompleteOut :=
  let total := attempts.length
  let correct := attempts.countP (fun a => a.isCorrect)
  { total := total
    correct := correct
    incorrect := total - correct
    bySection := sectionTallies catalog attempts [] }

/-- The fixed pass threshold of the session summary (study page
`passThreshold = 0.6`). -/
def passThreshold : ℚ := 6 / 10

/-- The per-section pass indicator the session summary renders from the
completion response (study page: `sectionRate >= passThreshold` with
`sectionRate = sectionData.correct / sectionData.total`). -/
def sectionPassed (totalCorrect : Nat × Nat) : Bool :=
  decide ((totalCorrect.2 : ℚ) / (totalCorrect.1 : ℚ) ≥ passThreshold)

/-- The §4.1 rule cascade as the spec words it, with the percentage
thresholds expressed exactly over the integer counts: accuracy = 100%
iff `correct = total`, accuracy < 50% iff `2·correct < total`, accuracy
> 80% iff `4·total < 5·correct`. -/
def confidenceSpecCascade (totalAttempts correctAttempts : Nat)
    (lastWasCorrect : Option Bool) : ConfidenceLevel :=
  if totalAttempts = 0 then .unseen
  else if correctAttempts = totalAttempts ∧ totalAttempts ≥ 3 then .mastered
  else if lastWasCorrect = some false ∨ 2 * correctAttempts < totalAttempts then .weak
  else if 4 * totalAttempts < 5 * correctAttempts ∧ totalAttempts ≥ 2 then .strong
  else .learning

lemma acc_eq_100 {t c : Nat} (ht : 0 < t) :
    ((c : ℚ) / (t : ℚ) * 100 = 100) ↔ c = t := by
  have ht' : (t : ℚ) ≠ 0 := Nat.cast_ne_zero.mpr ht.ne'
  rw [div_mul_eq_mul_div, div_eq_iff ht']
  constructor
  · intro h
    have h2 : ((c * 100 : Nat) : ℚ) = ((100 * t : Nat) : ℚ) := by push_cast; linarith
    have h3 : c * 100 = 100 * t := Nat.cast_injective h2
    omega
  · rintro rfl; ring

lemma acc_lt_50 {t c : Nat} (ht : 0 < t) :
    ((c : ℚ) / (t : ℚ) * 100 < 50) ↔ 2 * c < t := by
  have ht' : (0 : ℚ) < (t : ℚ) := by exact_mod_cast ht
  rw [div_mul_eq_mul_div, div_lt_iff₀ ht']
  constructor
  · intro h
    have h2 : (c * 100 : Nat) < 50 * t := by exact_mod_cast h
    omega
  · intro h
    have h2 : (c * 100 : Nat) < 50 * t := by omega
    exact_mod_cast h2

lemma acc_gt_80 {t c : Nat} (ht : 0 < t) :
    ((c : ℚ) / (t : ℚ) * 100 > 80) ↔ 4 * t < 5 * c := by
  have ht' : (0 : ℚ) < (t : ℚ) := by exact_mod_cast ht
  rw [div_mul_eq_mul_div, gt_iff_lt, lt_div_iff₀ ht']
  constructor
  · intro h
    have h2 : (80 * t : Nat) < c * 100 := by exact_mod_cast h
    omega
  · intro h
    have h2 : (80 * t : Nat) < c * 100 := by omega
    exact_mod_cast h2

/-- C3: the confidence classifier is total and agrees, on every input, with
the first-matching-rule cascade of §4.1 (thresholds read exactly); in
particular `totalAttempts=4, correctAttempts=3, lastWasCorrect=true` is
classified `learning`. -/
theorem C3_classifier_matches_cascade :
    (∀ t c lc, computeConfidenceLevel t c lc = confidenceSpecCascade t c lc) ∧
      computeConfidenceLevel 4 3 (some true) = .learning := by
  constructor
  · intro t c lc
    unfold computeConfidenceLevel confidenceSpecCascade
    by_cases ht : t = 0
    · simp [ht]
    · have ht' : 0 < t := Nat.pos_of_ne_zero ht
      simp only [ht, if_false, acc_eq_100 ht', acc_lt_50 ht', acc_gt_80 ht']
  · norm_num [computeConfidenceLevel]

/-- C8: a section filter matching zero catalog items makes the
next-question route fail fast with the 400 error — it neither falls back to
the full catalog nor answers with the `mastered` outcome. -/
theorem C8_empty_filter_errors (allQuestions : List Question) (s : String)
    (statsMap : String → Option QuestionStats) (excl : List String)
    (forcePhase : Option Phase) (orderParam : Option (List String × Nat))
    (rng : Nat → ℚ) (rF rW : ℚ)
    (h : allQuestions.filter (fun q => decide (q.sec = s)) = []) :
    nextQuestionRoute allQuestions (some s) statsMap excl forcePhase orderParam rng rF rW
      = .error 400 := by
  simp [nextQuestionRoute, h]

/-- C8 witness: a one-question catalog and the unknown section "zz". -/
theorem C8_empty_filter_errors_witness :
    nextQuestionRoute [⟨"q1", "a"⟩] (some "zz") (fun _ => none) [] none none
      (fun _ => 0) 0 0 = .error 400 :=
  C8_empty_filter_errors [⟨"q1", "a"⟩] "zz" (fun _ => none) [] none none
    (fun _ => 0) 0 0 (by simp)

lemma drawLoop_cons (id : String) (w : ℚ) (rest : List (String × ℚ)) (random : ℚ) :
    drawLoop ((id, w) :: rest) random =
      if random - w ≤ 0 then some id else drawLoop rest (random - w) := rfl

lemma drawLoop_mem_of_lt :
    ∀ (pool : List (String × ℚ)) (r : ℚ), pool ≠ [] →
      r < (pool.map (fun p => p.2)).sum →
      ∃ id, drawLoop pool r = some id ∧ id ∈ pool.map Prod.fst := by
  intro pool
  induction pool with
  | nil => intro r h; exact absurd rfl h
  | cons hd tl ih =>
    intro r _ hr
    obtain ⟨id, w⟩ := hd
    by_cases hw : r - w ≤ 0
    · exact ⟨id, by rw [drawLoop_cons, if_pos hw], by simp⟩
    · cases tl with
      | nil =>
        exfalso
        simp only [List.map_cons, List.map_nil, List.sum_cons, List.sum_nil,
          add_zero] at hr
        exact hw (by linarith)
      | cons hd2 tl2 =>
        have hr2 : r - w < ((hd2 :: tl2).map (fun p => p.2)).sum := by
          simp only [List.map_cons, List.sum_cons] at hr ⊢
          linarith
        obtain ⟨id2, heq, hmem⟩ := ih (r - w) (by simp) hr2
        refine ⟨id2, ?_, ?_⟩
        · rw [drawLoop_cons, if_neg hw]; exact heq
        · simp only [List.map_cons] at hmem ⊢
          exact List.mem_cons_of_mem _ hmem

lemma drawLoop_some_mem :
    ∀ (pool : List (String × ℚ)) (r : ℚ) (id : String),
      drawLoop pool r = some id → id ∈ pool.map Prod.fst := by
  intro pool
  induction pool with
  | nil => intro r id h; simp [drawLoop] at h
  | cons hd tl ih =>
    intro r id h
    obtain ⟨id1, w⟩ := hd
    by_cases hw : r - w ≤ 0
    · rw [drawLoop_cons, if_pos hw] at h
      simp at h
      simp [h]
    · rw [drawLoop_cons, if_neg hw] at h
      have := ih (r - w) id h
      simp only [List.map_cons] at this ⊢
      exact List.mem_cons_of_mem _ this

lemma weightedPool_weight_pos (qs : List Question)
    (statsMap : String → Option QuestionStats) (excl : List String) :
    ∀ p ∈ weightedPool qs statsMap excl, 0 < p.2 := by
  intro p hp
  unfold weightedPool at hp
  simp only [List.mem_append, List.mem_map] at hp
  rcases hp with (⟨_, _, rfl⟩ | ⟨_, _, rfl⟩) | ⟨_, _, rfl⟩ <;>
    norm_num [SELECTION_WEIGHTS_weak, SELECTION_WEIGHTS_learning, SELECTION_WEIGHTS_strong]

lemma weightedPool_sum_pos (qs : List Question)
    (statsMap : String → Option QuestionStats) (excl : List String)
    (h : weightedPool qs statsMap excl ≠ []) :
    0 < ((weightedPool qs statsMap excl).map (fun p => p.2)).sum := by
  apply List.sum_pos
  · intro x hx
    obtain ⟨p, hp, rfl⟩ := List.mem_map.mp hx
    exact weightedPool_weight_pos qs statsMap excl p hp
  · simpa using h

lemma weightedPool_fst_mem (qs : List Question)
    (statsMap : String → Option QuestionStats) (excl : List String) (id : String)
    (h : id ∈ (weightedPool qs statsMap excl).map Prod.fst) :
    id ∈ qs.map (fun q => q.id) ∧ id ∉ excl := by
  unfold weightedPool at h
  simp only [List.map_append, List.map_map, List.mem_append, List.mem_map,
    Function.comp] at h
  rcases h with (⟨x, hx, rfl⟩ | ⟨x, hx, rfl⟩) | ⟨x, hx, rfl⟩
  · rw [List.mem_mergeSort] at hx
    have := List.mem_filter.mp hx
    refine ⟨?_, by simpa using this.2⟩
    exact List.mem_of_mem_filter this.1
  · have := List.mem_filter.mp hx
    refine ⟨?_, by simpa using this.2⟩
    exact List.mem_of_mem_filter this.1
  · have := List.mem_filter.mp hx
    refine ⟨?_, by simpa using this.2⟩
    exact List.mem_of_mem_filter this.1

lemma find?_of_mem_ids (qs : List Question) (id : String)
    (h : id ∈ qs.map (fun q => q.id)) :
    ∃ q, qs.find? (fun q => decide (q.id = id)) = some q ∧ q.id = id ∧ q ∈ qs := by
  obtain ⟨x, hx, rfl⟩ := List.mem_map.mp h
  have hsome : (qs.find? (fun q => decide (q.id = x.id))).isSome := by
    rw [List.find?_isSome]
    exact ⟨x, hx, by simp⟩
  obtain ⟨q, hq⟩ := Option.isSome_iff_exists.mp hsome
  refine ⟨q, hq, ?_, List.mem_of_find?_eq_some hq⟩
  have := List.find?_some hq
  simpa using this

/-- C10: whenever the weighted pool (weak + learning + strong after cooling
exclusion) is non-empty and the draw `r` is a `Math.random()` outcome
(`0 ≤ r < 1`), the cumulative-weight loop itself returns an id of the pool
(the post-loop "fallback to first item" is never needed), and the selector
returns a question of the catalog bearing that id — never `null`, never an
id outside the pool, never an excluded id. -/
theorem C10_weighted_draw_total (qs : List Question)
    (statsMap : String → Option QuestionStats) (excl : List String) (r : ℚ)
    (hpool : weightedPool qs statsMap excl ≠ []) (hr0 : 0 ≤ r) (hr1 : r < 1) :
    ∃ id q,
      drawLoop (weightedPool qs statsMap excl)
          (r * ((weightedPool qs statsMap excl).map (fun p => p.2)).sum) = some id ∧
      id ∈ (weightedPool qs statsMap excl).map Prod.fst ∧
      selectWeightedQuestion qs statsMap excl r = some q ∧ q.id = id ∧ q ∈ qs ∧
      id ∉ excl := by
  obtain ⟨first, rest, hps⟩ := List.exists_cons_of_ne_nil hpool
  have hsum : 0 < ((weightedPool qs statsMap excl).map (fun p => p.2)).sum :=
    weightedPool_sum_pos _ _ _ hpool
  have hrlt : r * ((weightedPool qs statsMap excl).map (fun p => p.2)).sum <
      ((weightedPool qs statsMap excl).map (fun p => p.2)).sum :=
    mul_lt_of_lt_one_left hsum hr1
  obtain ⟨id, hdraw, hmem⟩ := drawLoop_mem_of_lt _ _ hpool hrlt
  obtain ⟨hqids, hnex⟩ := weightedPool_fst_mem qs statsMap excl id hmem
  obtain ⟨q, hfind, hqid, hqmem⟩ := find?_of_mem_ids qs id hqids
  refine ⟨id, q, hdraw, hmem, ?_, hqid, hqmem, hnex⟩
  unfold selectWeightedQuestion
  rw [hps] at hdraw ⊢
  simp only [List.map_cons, List.sum_cons] at hdraw
  simpa [hdraw] using hfind

/-- C10 witness: a singleton pool of one weak question and the draw 0. -/
theorem C10_weighted_draw_total_witness :
    ∃ id q,
      drawLoop (weightedPool [⟨"a", "s"⟩]
          (fun s => if s = "a" then
            some ⟨"a", 1, 0, some "t1", some false, .weak, 0⟩ else none) [])
          (0 * ((weightedPool [⟨"a", "s"⟩]
            (fun s => if s = "a" then
              some ⟨"a", 1, 0, some "t1", some false, .weak, 0⟩ else none) []).map
              (fun p => p.2)).sum) = some id ∧
      id ∈ (weightedPool [⟨"a", "s"⟩]
          (fun s => if s = "a" then
            some ⟨"a", 1, 0, some "t1", some false, .weak, 0⟩ else none) []).map
          Prod.fst ∧
      selectWeightedQuestion [⟨"a", "s"⟩]
          (fun s => if s = "a" then
            some ⟨"a", 1, 0, some "t1", some false, .weak, 0⟩ else none) [] 0
        = some q ∧ q.id = id ∧ q ∈ [⟨"a", "s"⟩] ∧ id ∉ ([] : List String) :=
  C10_weighted_draw_total [⟨"a", "s"⟩]
    (fun s => if s = "a" then
      some ⟨"a", 1, 0, some "t1", some false, .weak, 0⟩ else none) [] 0
    (by simp [weightedPool, categorizeQuestions, levelOf]) (by norm_num) (by norm_num)

/-- C9 (amended): the weighted selector never returns an id of its exclusion
set; hence two consecutive calls return different items whenever the first
call's selected item is placed in the second call's cooling hints — which is
what the study client does between calls. -/
theorem C9_no_repeat_when_first_excluded (qs : List Question)
    (statsMap : String → Option QuestionStats) (excl : List String)
    (q1id : String) (r : ℚ) (q : Question)
    (h : selectWeightedQuestion qs statsMap (q1id :: excl) r = some q) :
    q.id ≠ q1id ∧ q.id ∉ excl := by
  unfold selectWeightedQuestion at h
  split at h
  · exact absurd h (by simp)
  · rename_i first rest heq
    dsimp only [] at h
    split at h
    · rename_i id hdraw
      have hid : q.id = id := by simpa using List.find?_some h
      have hmem : id ∈ (first :: rest).map Prod.fst := drawLoop_some_mem _ _ _ hdraw
      rw [← heq] at hmem
      have hni := (weightedPool_fst_mem qs statsMap (q1id :: excl) id hmem).2
      simp only [List.mem_cons, not_or] at hni
      exact ⟨by rw [hid]; exact hni.1, by rw [hid]; exact hni.2⟩
    · have hid : q.id = first.1 := by simpa using List.find?_some h
      have hmem : first.1 ∈ (first :: rest).map Prod.fst := by simp
      rw [← heq] at hmem
      have hni := (weightedPool_fst_mem qs statsMap (q1id :: excl) first.1 hmem).2
      simp only [List.mem_cons, not_or] at hni
      exact ⟨by rw [hid]; exact hni.1, by rw [hid]; exact hni.2⟩

/-- C9 witness: with "a" in the cooling hints and draw 0, the selector picks
"b", which differs from "a". -/
theorem C9_no_repeat_when_first_excluded_witness :
    (⟨"b", "s"⟩ : Question).id ≠ "a" ∧
      (⟨"b", "s"⟩ : Question).id ∉ ([] : List String) :=
  C9_no_repeat_when_first_excluded [⟨"a", "s"⟩, ⟨"b", "s"⟩]
    (fun s => if s = "a" then some ⟨"a", 1, 0, some "t2", some false, .weak, 0⟩
      else if s = "b" then some ⟨"b", 1, 0, some "t1", some false, .weak, 0⟩
      else none)
    [] "a" 0 ⟨"b", "s"⟩
    (by
      simp +decide [selectWeightedQuestion, weightedPool, categorizeQuestions,
        levelOf, weakSortLe, List.mergeSort, drawLoop, SELECTION_WEIGHTS_weak,
        SELECTION_WEIGHTS_learning, SELECTION_WEIGHTS_strong])

/-- C9 counterexample: a drilling-phase pool with two eligible weak
questions. With identical (empty) cooling hints, no attempt recorded in
between and the draw outcome 0 at both calls, the route returns question
"a" both times: the claim's guarantee fails for this outcome of the random
source even though two eligible candidates exist. -/
theorem C9_counterexample_identical_hints_repeat :
    nextQuestionRoute [⟨"a", "s"⟩, ⟨"b", "s"⟩] none
      (fun s => if s = "a" then some ⟨"a", 1, 0, some "t2", some false, .weak, 0⟩
        else if s = "b" then some ⟨"b", 1, 0, some "t1", some false, .weak, 0⟩
        else none)
      [] none none (fun _ => 0) 0 0 = .selected ⟨"a", "s"⟩ none none ∧
    ((categorizeQuestions ["a", "b"]
      (fun s => if s = "a" then some ⟨"a", 1, 0, some "t2", some false, .weak, 0⟩
        else if s = "b" then some ⟨"b", 1, 0, some "t1", some false, .weak, 0⟩
        else none)).weak.filter (fun id => decide (id ∉ ([] : List String)))).length
      = 2 := by
  constructor
  · simp +decide [nextQuestionRoute, determinePhase, categorizeQuestions,
      levelOf, selectWeightedQuestion, weightedPool, weakSortLe,
      List.mergeSort, drawLoop, SELECTION_WEIGHTS_weak,
      SELECTION_WEIGHTS_learning, SELECTION_WEIGHTS_strong]
  · simp +decide [categorizeQuestions, levelOf]

lemma computeConfidenceLevel_ne_unseen (t c : Nat) (lc : Option Bool) (ht : 0 < t) :
    computeConfidenceLevel t c lc ≠ .unseen := by
  unfold computeConfidenceLevel
  rw [if_neg ht.ne']
  dsimp only
  split_ifs <;> simp

lemma determinePhase_drilling_facts (ids : List String)
    (statsMap : String → Option QuestionStats)
    (h : determinePhase ids statsMap = .drilling) :
    (∀ id ∈ ids, statsMap id ≠ none) ∧
      ∃ id ∈ ids, ∃ st, statsMap id = some st ∧ st.confidenceLevel ≠ .mastered := by
  unfold determinePhase at h
  dsimp only at h
  split_ifs at h with h1 h2
  have hz : ids.countP (fun id => decide (statsMap id = none)) = 0 := by omega
  have hall : ∀ id ∈ ids, statsMap id ≠ none := by
    intro id hid
    have := List.countP_eq_zero.mp hz id hid
    simpa using this
  refine ⟨hall, ?_⟩
  have hne : ¬ ∀ id ∈ ids, (fun id =>
      match statsMap id with
      | some st => decide (st.confidenceLevel = ConfidenceLevel.mastered)
      | none => false) id = true := by
    intro hforall
    exact h2 (List.countP_eq_length.mpr hforall)
  push_neg at hne
  obtain ⟨id, hid, hnp⟩ := hne
  refine ⟨id, hid, ?_⟩
  cases hst : statsMap id with
  | none => exact absurd hst (hall id hid)
  | some st =>
    rw [hst] at hnp
    simp only [decide_eq_true_eq] at hnp
    exact ⟨st, rfl, by simpa using hnp⟩

lemma determinePhase_coverage_unseen (ids : List String)
    (statsMap : String → Option QuestionStats)
    (h : determinePhase ids statsMap = .coverage) :
    ∃ id ∈ ids, statsMap id = none := by
  unfold determinePhase at h
  dsimp only at h
  split_ifs at h with h1 h2
  obtain ⟨id, hid, hp⟩ := List.countP_pos_iff.mp h1
  exact ⟨id, hid, by simpa using hp⟩

lemma floor_rand_lt (r : ℚ) (n : Nat) (h0 : 0 ≤ r) (h1 : r < 1) (hn : 0 < n) :
    (⌊r * (n : ℚ)⌋).toNat < n := by
  have hn' : (0 : ℚ) < (n : ℚ) := by exact_mod_cast hn
  have h2 : r * (n : ℚ) < (n : ℚ) := mul_lt_of_lt_one_left hn' h1
  have h3 : ⌊r * (n : ℚ)⌋ < (n : ℤ) := by
    rw [Int.floor_lt]
    exact_mod_cast h2
  omega

lemma getD_mem_of_lt {l : List String} {k : Nat} (h : k < l.length) (d : String) :
    l.getD k d ∈ l := by
  rw [List.getD_eq_getElem l d h]
  exact List.getElem_mem h

lemma weightedPoolQ_weight_pos (qs : List QCode)
    (statsMap : String → Option QuestionStats) (excl : List String) :
    ∀ p ∈ weightedPoolQ qs statsMap excl, 0 < p.2 := by
  intro p hp
  unfold weightedPoolQ at hp
  simp only [List.mem_append, List.mem_map] at hp
  rcases hp with (⟨_, _, rfl⟩ | ⟨_, _, rfl⟩) | ⟨_, _, rfl⟩ <;>
    norm_num [SELECTION_WEIGHTS_weak, SELECTION_WEIGHTS_learning, SELECTION_WEIGHTS_strong]

lemma weightedPoolQ_sum_pos (qs : List QCode)
    (statsMap : String → Option QuestionStats) (excl : List String)
    (h : weightedPoolQ qs statsMap excl ≠ []) :
    0 < ((weightedPoolQ qs statsMap excl).map (fun p => p.2)).sum := by
  apply List.sum_pos
  · intro x hx
    obtain ⟨p, hp, rfl⟩ := List.mem_map.mp hx
    exact weightedPoolQ_weight_pos qs statsMap excl p hp
  · simpa using h

lemma weightedPoolQ_fst_mem (qs : List QCode)
    (statsMap : String → Option QuestionStats) (excl : List String) (id : String)
    (h : id ∈ (weightedPoolQ qs statsMap excl).map Prod.fst) :
    id ∈ qs.map (fun q => q.id) ∧ id ∉ excl := by
  unfold weightedPoolQ at h
  simp only [List.map_append, List.map_map, List.mem_append, List.mem_map,
    Function.comp] at h
  rcases h with (⟨x, hx, rfl⟩ | ⟨x, hx, rfl⟩) | ⟨x, hx, rfl⟩ <;>
  · have := List.mem_filter.mp hx
    exact ⟨List.mem_of_mem_filter this.1, by simpa using this.2⟩

lemma findQ?_of_mem_ids (qs : List QCode) (id : String)
    (h : id ∈ qs.map (fun q => q.id)) :
    ∃ q, qs.find? (fun q => decide (q.id = id)) = some q ∧ q.id = id ∧ q ∈ qs := by
  obtain ⟨x, hx, rfl⟩ := List.mem_map.mp h
  have hsome : (qs.find? (fun q => decide (q.id = x.id))).isSome := by
    rw [List.find?_isSome]
    exact ⟨x, hx, by simp⟩
  obtain ⟨q, hq⟩ := Option.isSome_iff_exists.mp hsome
  refine ⟨q, hq, ?_, List.mem_of_find?_eq_some hq⟩
  have := List.find?_some hq
  simpa using this

lemma selectWeightedQCode_isSome (qs : List QCode)
    (statsMap : String → Option QuestionStats) (excl : List String) (r : ℚ)
    (hpool : weightedPoolQ qs statsMap excl ≠ []) (hr0 : 0 ≤ r) (hr1 : r < 1) :
    ∃ q, selectWeightedQCode qs statsMap excl r = some q ∧ q ∈ qs ∧
      q.id ∈ (weightedPoolQ qs statsMap excl).map Prod.fst := by
  obtain ⟨first, rest, hps⟩ := List.exists_cons_of_ne_nil hpool
  have hsum : 0 < ((weightedPoolQ qs statsMap excl).map (fun p => p.2)).sum :=
    weightedPoolQ_sum_pos _ _ _ hpool
  have hrlt : r * ((weightedPoolQ qs statsMap excl).map (fun p => p.2)).sum <
      ((weightedPoolQ qs statsMap excl).map (fun p => p.2)).sum :=
    mul_lt_of_lt_one_left hsum hr1
  obtain ⟨id, hdraw, hmem⟩ := drawLoop_mem_of_lt _ _ hpool hrlt
  obtain ⟨hqids, _⟩ := weightedPoolQ_fst_mem qs statsMap excl id hmem
  obtain ⟨q, hfind, hqid, hqmem⟩ := findQ?_of_mem_ids qs id hqids
  refine ⟨q, ?_, hqmem, by rw [hqid]; exact hmem⟩
  unfold selectWeightedQCode
  rw [hps] at hdraw ⊢
  simp only [List.map_cons, List.sum_cons] at hdraw
  simpa [hdraw] using hfind

lemma weightedPoolQ_ne_nil (qs : List QCode)
    (statsMap : String → Option QuestionStats) (id : String)
    (hid : id ∈ qs.map (fun q => q.id))
    (hl : levelOf statsMap id = .weak ∨ levelOf statsMap id = .learning ∨
      levelOf statsMap id = .strong) :
    weightedPoolQ qs statsMap [] ≠ [] := by
  have hmk : ∀ (lev : ConfidenceLevel) (w : ℚ), levelOf statsMap id = lev →
      (id, w) ∈ (((qs.map (fun q => q.id)).filter
          (fun i => decide (levelOf statsMap i = lev))).filter
            (fun i => decide (i ∉ ([] : List String)))).map (fun i => (i, w)) := by
    intro lev w hlev
    refine List.mem_map_of_mem _ (List.mem_filter.mpr ⟨?_, by simp⟩)
    exact List.mem_filter.mpr ⟨hid, by simp [hlev]⟩
  unfold weightedPoolQ categorizeQuestions
  rcases hl with hl | hl | hl
  · exact List.ne_nil_of_mem
      (List.mem_append_left _ (List.mem_append_left _ (hmk _ SELECTION_WEIGHTS_weak hl)))
  · exact List.ne_nil_of_mem
      (List.mem_append_left _ (List.mem_append_right _ (hmk _ SELECTION_WEIGHTS_learning hl)))
  · exact List.ne_nil_of_mem
      (List.mem_append_right _ (hmk _ SELECTION_WEIGHTS_strong hl))

lemma unseen_mem_categorize (ids : List String)
    (statsMap : String → Option QuestionStats) (id : String) (hid : id ∈ ids)
    (hnone : statsMap id = none) :
    id ∈ (categorizeQuestions ids statsMap).unseen := by
  unfold categorizeQuestions
  exact List.mem_filter.mpr ⟨hid, by simp [levelOf, hnone]⟩

lemma qcodesCoverage_isSome_cursor (qs : List QCode)
    (statsMap : String → Option QuestionStats) (excl : List String)
    (order : List String) (idx : Nat) (rng : Nat → ℚ) (rF : ℚ)
    (hunseen : ∃ id ∈ qs.map (fun q => q.id), statsMap id = none)
    (hr0 : 0 ≤ rF) (hr1 : rF < 1) :
    ∃ q, (qcodesCoverage qs (qs.map (fun q => q.id)) statsMap excl
      (some (order, idx)) rng rF).1 = some q := by
  obtain ⟨uid, huid, hunone⟩ := hunseen
  have humem := unseen_mem_categorize _ statsMap uid huid hunone
  have hulen : 0 < (categorizeQuestions (qs.map (fun q => q.id)) statsMap).unseen.length :=
    List.length_pos.mpr (List.ne_nil_of_mem humem)
  unfold qcodesCoverage
  dsimp only
  cases hscan : coverageScanQ qs order excl idx with
  | some res =>
    obtain ⟨q0, fi⟩ := res
    exact ⟨q0, by simp [hscan]⟩
  | none =>
    by_cases hune : 0 < ((categorizeQuestions (qs.map (fun q => q.id)) statsMap).unseen.filter
        (fun id => decide (id ∉ excl))).length
    · have hk := floor_rand_lt rF _ hr0 hr1 hune
      have hmem := getD_mem_of_lt hk ""
      have hmem3 : ((categorizeQuestions (qs.map (fun q => q.id)) statsMap).unseen.filter
          (fun id => decide (id ∉ excl))).getD
            ((⌊rF * ((((categorizeQuestions (qs.map (fun q => q.id)) statsMap).unseen.filter
              (fun id => decide (id ∉ excl))).length : Nat) : ℚ)⌋).toNat) ""
          ∈ qs.map (fun q => q.id) :=
        List.mem_of_mem_filter (List.mem_of_mem_filter hmem)
      obtain ⟨q, hfind, _, _⟩ := findQ?_of_mem_ids qs _ hmem3
      refine ⟨q, ?_⟩
      simp only [hscan]
      rw [if_pos hulen, if_pos hune]
      exact hfind
    · have hk := floor_rand_lt rF _ hr0 hr1 hulen
      have hmem := getD_mem_of_lt hk ""
      have hmem3 : (categorizeQuestions (qs.map (fun q => q.id)) statsMap).unseen.getD
            ((⌊rF * (((categorizeQuestions (qs.map (fun q => q.id)) statsMap).unseen.length : Nat) : ℚ)⌋).toNat) ""
          ∈ qs.map (fun q => q.id) :=
        List.mem_of_mem_filter hmem
      obtain ⟨q, hfind, _, _⟩ := findQ?_of_mem_ids qs _ hmem3
      refine ⟨q, ?_⟩
      simp only [hscan]
      rw [if_pos hulen, if_neg hune]
      exact hfind

lemma qcodesCoverage_isSome (qs : List QCode)
    (statsMap : String → Option QuestionStats) (excl : List String)
    (orderParam : Option (List String × Nat)) (rng : Nat → ℚ) (rF : ℚ)
    (hunseen : ∃ id ∈ qs.map (fun q => q.id), statsMap id = none)
    (hr0 : 0 ≤ rF) (hr1 : rF < 1) :
    ∃ q, (qcodesCoverage qs (qs.map (fun q => q.id)) statsMap excl orderParam
      rng rF).1 = some q := by
  cases orderParam with
  | some c =>
    obtain ⟨o, i⟩ := c
    exact qcodesCoverage_isSome_cursor qs statsMap excl o i rng rF hunseen hr0 hr1
  | none =>
    exact qcodesCoverage_isSome_cursor qs statsMap excl
      (fisherYates (categorizeQuestions (qs.map (fun q => q.id)) statsMap).unseen rng)
      0 rng rF hunseen hr0 hr1

/-- C2 (amended): in the q-codes route — which implements both exhaustion
fallbacks of §4.4 — a coverage-phase request always selects an item: when
the forward scan finds nothing it draws from the unseen ids not cooling, and
when every unseen id is cooling it draws from the full unseen set, ignoring
cooling. The questions route lacks the second fallback (see the
counterexample). -/
theorem C2_qcodes_coverage_progress (qs : List QCode)
    (statsMap : String → Option QuestionStats) (excl : List String)
    (orderParam : Option (List String × Nat)) (rng : Nat → ℚ) (rF rW1 rW2 : ℚ)
    (hphase : determinePhase (qs.map (fun q => q.id)) statsMap = .coverage)
    (hr0 : 0 ≤ rF) (hr1 : rF < 1) :
    ∃ q o i, qCodesNextRoute qs statsMap excl orderParam rng rF rW1 rW2
      = .selected q o i := by
  have hunseen := determinePhase_coverage_unseen _ _ hphase
  obtain ⟨q, hq⟩ := qcodesCoverage_isSome qs statsMap excl orderParam rng rF
    hunseen hr0 hr1
  refine ⟨q, (qcodesCoverage qs (qs.map (fun q => q.id)) statsMap excl orderParam
    rng rF).2.1,
    (qcodesCoverage qs (qs.map (fun q => q.id)) statsMap excl orderParam
    rng rF).2.2, ?_⟩
  unfold qCodesNextRoute
  simp [hphase, hq]

/-- C2 witness: one unseen q-code whose id is cooling and a supplied
exhausted cursor; the coverage phase still selects an item. -/
theorem C2_qcodes_coverage_progress_witness :
    ∃ q o i, qCodesNextRoute [⟨"a"⟩] (fun _ => none) ["a"] (some (["a"], 0))
      (fun _ => 0) 0 0 0 = .selected q o i :=
  C2_qcodes_coverage_progress [⟨"a"⟩] (fun _ => none) ["a"] (some (["a"], 0))
    (fun _ => 0) 0 0 0 (by simp +decide [determinePhase]) (by norm_num) (by norm_num)

/-- C1 (amended): the q-codes route's weighted step retries with cooling
ignored (route lines 156-159), so in the drilling phase it reports no
candidate only when no non-mastered item exists: with stats well-formed as
`getQuestionStats` produces them (level computed from the counts, at least
one attempt per row) a drilling-phase request always selects. The questions
route has no such retry (see the counterexample). -/
theorem C1_qcodes_weighted_fallback (qs : List QCode)
    (statsMap : String → Option QuestionStats) (excl : List String)
    (orderParam : Option (List String × Nat)) (rng : Nat → ℚ) (rF rW1 rW2 : ℚ)
    (hphase : determinePhase (qs.map (fun q => q.id)) statsMap = .drilling)
    (hwf : ∀ id st, statsMap id = some st →
      st.confidenceLevel = computeConfidenceLevel st.totalAttempts
        st.correctAttempts st.lastWasCorrect ∧ 0 < st.totalAttempts)
    (hr0 : 0 ≤ rW2) (hr1 : rW2 < 1) :
    ∃ q, qCodesNextRoute qs statsMap excl orderParam rng rF rW1 rW2
      = .selected q none none := by
  have hfacts := determinePhase_drilling_facts _ _ hphase
  obtain ⟨id, hid, st, hst, hnm⟩ := hfacts.2
  have hwfid := hwf id st hst
  have hnu : st.confidenceLevel ≠ .unseen := by
    rw [hwfid.1]
    exact computeConfidenceLevel_ne_unseen _ _ _ hwfid.2
  have hlev : levelOf statsMap id = st.confidenceLevel := by simp [levelOf, hst]
  have hl : levelOf statsMap id = .weak ∨ levelOf statsMap id = .learning ∨
      levelOf statsMap id = .strong := by
    rw [hlev]
    cases hc : st.confidenceLevel
    · exact absurd hc hnu
    · exact Or.inl rfl
    · exact Or.inr (Or.inl rfl)
    · exact Or.inr (Or.inr rfl)
    · exact absurd hc hnm
  have hpool := weightedPoolQ_ne_nil qs statsMap id hid hl
  obtain ⟨q2, hq2, _, _⟩ := selectWeightedQCode_isSome qs statsMap [] rW2 hpool hr0 hr1
  cases hsel : selectWeightedQCode qs statsMap excl rW1 with
  | some q0 => exact ⟨q0, by simp [qCodesNextRoute, hphase, hsel]⟩
  | none => exact ⟨q2, by simp [qCodesNextRoute, hphase, hsel, hq2]⟩

/-- C1 witness: one weak q-code that is cooling; the first weighted call
returns nothing, the retry without cooling selects it. -/
theorem C1_qcodes_weighted_fallback_witness :
    ∃ q, qCodesNextRoute [⟨"a"⟩]
      (fun s => if s = "a" then some ⟨"a", 1, 0, some "t1", some false, .weak, 0⟩
        else none)
      ["a"] none (fun _ => 0) 0 0 0 = .selected q none none :=
  C1_qcodes_weighted_fallback [⟨"a"⟩]
    (fun s => if s = "a" then some ⟨"a", 1, 0, some "t1", some false, .weak, 0⟩
      else none)
    ["a"] none (fun _ => 0) 0 0 0
    (by simp +decide [determinePhase])
    (by
      intro id st h
      by_cases hid : id = "a"
      · subst hid
        simp at h
        subst h
        refine ⟨?_, by norm_num⟩
        norm_num [computeConfidenceLevel]
      · simp [hid] at h)
    (by norm_num) (by norm_num)

/-- C1 counterexample: in the questions route the weighted selector has no
cooling-ignoring retry. One weak (non-mastered) question whose id is in the
cooling set: the phase is `drilling`, yet the route answers
`question: null, phase: 'mastered'` — "no candidate" although a non-mastered
item exists, contradicting the claim for this route. -/
theorem C1_counterexample_questions_no_fallback :
    determinePhase ["a"]
      (fun s => if s = "a" then some ⟨"a", 1, 0, some "t1", some false, .weak, 0⟩
        else none) = .drilling ∧
    nextQuestionRoute [⟨"a", "s"⟩] none
      (fun s => if s = "a" then some ⟨"a", 1, 0, some "t1", some false, .weak, 0⟩
        else none)
      ["a"] none none (fun _ => 0) 0 0 = .masteredOut := by
  constructor
  · simp +decide [determinePhase]
  · simp +decide [nextQuestionRoute, determinePhase, categorizeQuestions,
      levelOf, selectWeightedQuestion, weightedPool, weakSortLe,
      List.mergeSort, drawLoop, SELECTION_WEIGHTS_weak,
      SELECTION_WEIGHTS_learning, SELECTION_WEIGHTS_strong]

/-- C2 counterexample: in the questions route the coverage exhaustion path
has no final cooling-ignoring fallback. One unseen question whose id is in
the cooling set and an exhausted cursor: the phase is `coverage` with an
unseen item, yet the route answers `question: null, phase: 'mastered'`,
contradicting the claim for this route. -/
theorem C2_counterexample_questions_coverage_falls_through :
    determinePhase ["a"] (fun _ => none) = .coverage ∧
    nextQuestionRoute [⟨"a", "s"⟩] none (fun _ => none)
      ["a"] none (some (["a"], 0)) (fun _ => 0) 0 0 = .masteredOut := by
  constructor
  · simp +decide [determinePhase]
  · simp +decide [nextQuestionRoute, determinePhase, categorizeQuestions,
      levelOf, questionsCoverage, coverageScan, selectWeightedQuestion,
      weightedPool, weakSortLe, List.mergeSort, drawLoop,
      SELECTION_WEIGHTS_weak, SELECTION_WEIGHTS_learning,
      SELECTION_WEIGHTS_strong]

lemma cons_set_perm {α : Type} (l : List α) (j : Nat) (b x : α)
    (h : l.get? j = some b) : (b :: l.set j x).Perm (x :: l) := by
  induction l generalizing j with
  | nil => simp at h
  | cons y t ih =>
    cases j with
    | zero =>
      simp only [List.get?_cons_zero, Option.some.injEq] at h
      subst h
      exact List.Perm.swap x y t
    | succ j =>
      simp only [List.get?_cons_succ] at h
      have he : (y :: t).set (j + 1) x = y :: t.set j x := by simp
      rw [he]
      exact ((List.Perm.swap y b _).trans
        (List.Perm.cons y (ih j h))).trans (List.Perm.swap x y t)

lemma set_set_perm {α : Type} (l : List α) (i j : Nat) (a b : α)
    (ha : l.get? i = some a) (hb : l.get? j = some b) :
    ((l.set i b).set j a).Perm l := by
  induction l generalizing i j with
  | nil => simp at ha
  | cons y t ih =>
    cases i with
    | zero =>
      simp only [List.get?_cons_zero, Option.some.injEq] at ha
      subst ha
      cases j with
      | zero => simp
      | succ j =>
        simp only [List.get?_cons_succ] at hb
        simpa using cons_set_perm t j b y hb
    | succ i =>
      simp only [List.get?_cons_succ] at ha
      cases j with
      | zero =>
        simp only [List.get?_cons_zero, Option.some.injEq] at hb
        subst hb
        simpa using cons_set_perm t i a y ha
      | succ j =>
        simp only [List.set_cons_succ]
        exact List.Perm.cons y (ih i j ha hb)

lemma listSwap_perm {α : Type} (l : List α) (i j : Nat) : (listSwap l i j).Perm l := by
  unfold listSwap
  cases h1 : l.get? i with
  | none => exact List.Perm.refl l
  | some a =>
    cases h2 : l.get? j with
    | none => exact List.Perm.refl l
    | some b => exact set_set_perm l i j a b h1 h2

lemma fisherYatesAux_perm {α : Type} (rng : Nat → ℚ) :
    ∀ (i k : Nat) (l : List α), (fisherYatesAux rng k i l).Perm l := by
  intro i
  induction i with
  | zero => intro k l; exact List.Perm.refl l
  | succ i ih =>
    intro k l
    unfold fisherYatesAux
    exact (ih (k + 1) _).trans (listSwap_perm l (i + 1) _)

lemma fisherYates_perm {α : Type} (l : List α) (rng : Nat → ℚ) :
    (fisherYates l rng).Perm l :=
  fisherYatesAux_perm rng (l.length - 1) 0 l

lemma fillFrom_mem (t : Nat) :
    ∀ (xs sel : List String) (y : String), y ∈ fillFrom t sel xs → y ∈ sel ∨ y ∈ xs := by
  intro xs
  induction xs with
  | nil => intro sel y hy; exact Or.inl (by simpa [fillFrom] using hy)
  | cons x rest ih =>
    intro sel y hy
    unfold fillFrom at hy
    split_ifs at hy with h1 h2
    · exact Or.inl hy
    · rcases ih sel y hy with h | h
      · exact Or.inl h
      · exact Or.inr (List.mem_cons_of_mem _ h)
    · rcases ih (sel ++ [x]) y hy with h | h
      · rcases List.mem_append.mp h with h | h
        · exact Or.inl h
        · exact Or.inr (by simpa using Or.inl (List.mem_singleton.mp h))
      · exact Or.inr (List.mem_cons_of_mem _ h)

lemma fillFrom_nodup (t : Nat) :
    ∀ (xs sel : List String), sel.Nodup → (fillFrom t sel xs).Nodup := by
  intro xs
  induction xs with
  | nil => intro sel h; simpa [fillFrom] using h
  | cons x rest ih =>
    intro sel h
    unfold fillFrom
    split_ifs with h1 h2
    · exact h
    · exact ih sel h
    · exact ih (sel ++ [x]) (by simp [List.nodup_append, h, h2])

lemma fillFrom_length_le (t : Nat) :
    ∀ (xs sel : List String), sel.length ≤ t → (fillFrom t sel xs).length ≤ t := by
  intro xs
  induction xs with
  | nil => intro sel h; simpa [fillFrom] using h
  | cons x rest ih =>
    intro sel h
    unfold fillFrom
    split_ifs with h1 h2
    · exact h
    · exact ih sel h
    · exact ih (sel ++ [x]) (by simp; omega)

lemma fillFrom_length (t : Nat) :
    ∀ (xs sel : List String), xs.Nodup → sel.length ≤ t →
      (fillFrom t sel xs).length =
        min t (sel.length + (xs.filter (fun x => decide (x ∉ sel))).length) := by
  intro xs
  induction xs with
  | nil =>
    intro sel _ hsel
    simp [fillFrom, Nat.min_eq_right hsel]
  | cons x rest ih =>
    intro sel hnd hsel
    have hndr := (List.nodup_cons.mp hnd).2
    have hxr := (List.nodup_cons.mp hnd).1
    unfold fillFrom
    split_ifs with h1 h2
    · have hst : sel.length = t := le_antisymm hsel h1
      rw [hst]
      exact (Nat.min_eq_left (Nat.le_add_right _ _)).symm
    · rw [ih sel hndr hsel]
      have : List.filter (fun y => decide (y ∉ sel)) (x :: rest)
          = List.filter (fun y => decide (y ∉ sel)) rest := by
        rw [List.filter_cons]
        simp [h2]
      rw [this]
    · rw [ih (sel ++ [x]) hndr (by simp; omega)]
      have hfc : List.filter (fun y => decide (y ∉ sel)) (x :: rest)
          = x :: List.filter (fun y => decide (y ∉ sel)) rest := by
        rw [List.filter_cons]
        simp [h2]
      have hfr : List.filter (fun y => decide (y ∉ sel ++ [x])) rest
          = List.filter (fun y => decide (y ∉ sel)) rest := by
        apply List.filter_congr
        intro y hy
        have hyx : y ≠ x := fun hc => hxr (hc ▸ hy)
        simp [hyx]
      rw [hfr, hfc]
      simp only [List.length_append, List.length_cons, List.length_nil]
      omega

lemma length_filter_mem_add_not_mem (pool s3 : List String) :
    (pool.filter (fun x => decide (x ∈ s3))).length
      + (pool.filter (fun x => decide (x ∉ s3))).length = pool.length := by
  induction pool with
  | nil => simp
  | cons x rest ih =>
    rw [List.filter_cons, List.filter_cons]
    by_cases hx : x ∈ s3
    · rw [if_pos (by simpa using hx), if_neg (by simpa using hx)]
      simp only [List.length_cons]
      omega
    · rw [if_neg (by simpa using hx), if_pos (by simpa using hx)]
      simp only [List.length_cons]
      omega

lemma filter_mem_length_eq (pool s3 : List String) (hnd : pool.Nodup)
    (h3 : s3.Nodup) (hsub : ∀ y ∈ s3, y ∈ pool) :
    (pool.filter (fun x => decide (x ∈ s3))).length = s3.length := by
  have hperm : (pool.filter (fun x => decide (x ∈ s3))).Perm s3 := by
    rw [List.perm_ext_iff_of_nodup (hnd.filter _) h3]
    intro a
    simp only [List.mem_filter, decide_eq_true_eq]
    constructor
    · rintro ⟨_, h⟩; exact h
    · intro h; exact ⟨hsub a h, h⟩
  exact hperm.length_eq

lemma mem_pool_of_mem_neverSeen (pool : List String)
    (statsMap : String → Option SessAttemptStats) (y : String)
    (h : y ∈ neverSeenOf pool statsMap) : y ∈ pool :=
  List.mem_of_mem_filter h

lemma mem_pool_of_mem_leastIds (pool : List String)
    (statsMap : String → Option SessAttemptStats) (y : String)
    (h : y ∈ ((leastAnsweredOf pool statsMap).mergeSort
      (fun a b => decide (a.2 ≤ b.2))).map (fun p => p.1)) : y ∈ pool := by
  obtain ⟨p, hp, rfl⟩ := List.mem_map.mp h
  rw [List.mem_mergeSort] at hp
  obtain ⟨qId, hq, heq⟩ := List.mem_filterMap.mp hp
  cases hst : statsMap qId with
  | none =>
    rw [hst] at heq
    exact Option.noConfusion heq
  | some st =>
    rw [hst] at heq
    have h2 := Option.some.inj heq
    subst h2
    exact hq

lemma mem_pool_of_mem_wrongIds (pool : List String)
    (statsMap : String → Option SessAttemptStats) (y : String)
    (h : y ∈ ((wrongAnswersOf pool statsMap).mergeSort wrongSortLe).map
      (fun p => p.1)) : y ∈ pool := by
  obtain ⟨p, hp, rfl⟩ := List.mem_map.mp h
  rw [List.mem_mergeSort] at hp
  obtain ⟨qId, hq, heq⟩ := List.mem_filterMap.mp hp
  cases hst : statsMap qId with
  | none =>
    rw [hst] at heq
    exact Option.noConfusion heq
  | some st =>
    rw [hst] at heq
    dsimp only at heq
    split_ifs at heq
    · have h2 := Option.some.inj heq
      subst h2
      exact hq
    · have h2 := Option.some.inj heq
      subst h2
      exact hq

/-- C5: the Session Assembler's per-pool selection never repeats an id and
returns exactly `min target (pool size)` items, for every pool, stats map,
target and shuffle outcome. -/
theorem C5_session_selection_size (pool : List String)
    (statsMap : String → Option SessAttemptStats) (target : Nat) (rng : Nat → ℚ)
    (hnd : pool.Nodup) :
    (selectQuestionsFromPool pool statsMap target rng).Nodup ∧
    (selectQuestionsFromPool pool statsMap target rng).length
      = min target pool.length := by
  set ns := neverSeenOf pool statsMap with hns
  set la := ((leastAnsweredOf pool statsMap).mergeSort
    (fun a b => decide (a.2 ≤ b.2))).map (fun p => p.1) with hla
  set wa := ((wrongAnswersOf pool statsMap).mergeSort wrongSortLe).map
    (fun p => p.1) with hwa
  set s1 := fillFrom target [] ns with hs1
  set s2 := fillFrom target s1 la with hs2
  set s3 := fillFrom target s2 wa with hs3
  have hresult : selectQuestionsFromPool pool statsMap target rng
      = if s3.length < target then fillFrom target s3 (fisherYates pool rng)
        else s3 := rfl
  have h1nd : s1.Nodup := fillFrom_nodup _ _ _ (by simp)
  have h2nd : s2.Nodup := fillFrom_nodup _ _ _ h1nd
  have h3nd : s3.Nodup := fillFrom_nodup _ _ _ h2nd
  have hsub1 : ∀ y ∈ s1, y ∈ pool := by
    intro y hy
    rcases fillFrom_mem _ _ _ _ hy with h | h
    · simp at h
    · exact mem_pool_of_mem_neverSeen pool statsMap y h
  have hsub2 : ∀ y ∈ s2, y ∈ pool := by
    intro y hy
    rcases fillFrom_mem _ _ _ _ hy with h | h
    · exact hsub1 y h
    · exact mem_pool_of_mem_leastIds pool statsMap y h
  have hsub3 : ∀ y ∈ s3, y ∈ pool := by
    intro y hy
    rcases fillFrom_mem _ _ _ _ hy with h | h
    · exact hsub2 y h
    · exact mem_pool_of_mem_wrongIds pool statsMap y h
  have hlen1 : s1.length ≤ target := fillFrom_length_le _ _ _ (by simp)
  have hlen2 : s2.length ≤ target := fillFrom_length_le _ _ _ hlen1
  have hlen3 : s3.length ≤ target := fillFrom_length_le _ _ _ hlen2
  have hmeml : (pool.filter (fun x => decide (x ∈ s3))).length = s3.length :=
    filter_mem_length_eq pool s3 hnd h3nd hsub3
  have hsplit := length_filter_mem_add_not_mem pool s3
  have h3pl : s3.length ≤ pool.length := by
    rw [← hmeml]
    exact List.length_filter_le _ _
  by_cases hc : s3.length < target
  · rw [hresult, if_pos hc]
    refine ⟨fillFrom_nodup _ _ _ h3nd, ?_⟩
    have hshnd : (fisherYates pool rng).Nodup :=
      ((fisherYates_perm pool rng).nodup_iff).mpr hnd
    rw [fillFrom_length target (fisherYates pool rng) s3 hshnd (le_of_lt hc)]
    have hpf : (List.filter (fun x => decide (x ∉ s3)) (fisherYates pool rng)).length
        = (List.filter (fun x => decide (x ∉ s3)) pool).length :=
      ((fisherYates_perm pool rng).filter _).length_eq
    rw [hpf]
    omega
  · rw [hresult, if_neg hc]
    have : s3.length = target := le_antisymm hlen3 (not_lt.mp hc)
    refine ⟨h3nd, ?_⟩
    omega

/-- C5 witness: a section pool of three never-seen items with target 20
gives exactly three distinct items. -/
theorem C5_session_selection_size_witness :
    (selectQuestionsFromPool ["a", "b", "c"] (fun _ => none) 20 (fun _ => 0)).Nodup ∧
    (selectQuestionsFromPool ["a", "b", "c"] (fun _ => none) 20 (fun _ => 0)).length
      = min 20 (["a", "b", "c"] : List String).length :=
  C5_session_selection_size ["a", "b", "c"] (fun _ => none) 20 (fun _ => 0) (by decide)

lemma fillFrom_prefix (t : Nat) :
    ∀ (xs sel : List String), ∃ rest, fillFrom t sel xs = sel ++ rest := by
  intro xs
  induction xs with
  | nil => intro sel; exact ⟨[], by simp [fillFrom]⟩
  | cons x rest ih =>
    intro sel
    unfold fillFrom
    split_ifs with h1 h2
    · exact ⟨[], by simp⟩
    · exact ih sel
    · obtain ⟨r, hr⟩ := ih (sel ++ [x])
      exact ⟨x :: r, by simp [hr]⟩

lemma fillFrom_disjoint_take (t : Nat) :
    ∀ (xs sel : List String), xs.Nodup → (∀ x ∈ xs, x ∉ sel) →
      fillFrom t sel xs = sel ++ xs.take (t - sel.length) := by
  intro xs
  induction xs with
  | nil => intro sel _ _; simp [fillFrom]
  | cons x rest ih =>
    intro sel hnd hdisj
    have hndr := (List.nodup_cons.mp hnd).2
    have hxr := (List.nodup_cons.mp hnd).1
    unfold fillFrom
    split_ifs with h1 h2
    · have : t - sel.length = 0 := by omega
      simp [this]
    · exact absurd h2 (hdisj x (by simp))
    · rw [ih (sel ++ [x]) hndr (by
        intro y hy
        simp only [List.mem_append, List.mem_singleton, not_or]
        exact ⟨hdisj y (List.mem_cons_of_mem _ hy), fun hc => hxr (hc ▸ hy)⟩)]
      have harith : t - sel.length = (t - (sel ++ [x]).length) + 1 := by
        simp only [List.length_append, List.length_cons, List.length_nil]
        omega
      rw [harith, List.take_succ_cons, List.append_assoc]
      simp

lemma map_fst_filterMap_sublist {β : Type} (l : List String)
    (f : String → Option (String × β))
    (h : ∀ x p, f x = some p → p.1 = x) :
    ((l.filterMap f).map (fun p => p.1)).Sublist l := by
  induction l with
  | nil => simp
  | cons x rest ih =>
    rw [List.filterMap_cons]
    cases hf : f x with
    | none => exact ih.cons x
    | some p =>
      rw [List.map_cons, h x p hf]
      exact ih.cons₂ x

lemma leastIds_sublist (pool : List String)
    (statsMap : String → Option SessAttemptStats) :
    ((leastAnsweredOf pool statsMap).map (fun p => p.1)).Sublist pool := by
  refine map_fst_filterMap_sublist pool _ ?_
  intro x p hp
  rcases Option.map_eq_some'.mp hp with ⟨st, _, hst⟩
  exact (congrArg Prod.fst hst).symm

lemma wrongIds_sublist (pool : List String)
    (statsMap : String → Option SessAttemptStats) :
    ((wrongAnswersOf pool statsMap).map (fun p => p.1)).Sublist pool := by
  refine map_fst_filterMap_sublist pool _ ?_
  intro x p hp
  cases hm : statsMap x with
  | none => rw [hm] at hp; exact absurd hp (by simp)
  | some st =>
    rw [hm] at hp
    dsimp only at hp
    split_ifs at hp with h1 h2 <;>
      exact (congrArg Prod.fst (Option.some.inj hp)).symm

lemma fillFrom_filter_take (t : Nat) :
    ∀ (xs sel : List String), xs.Nodup →
      fillFrom t sel xs
        = sel ++ (xs.filter (fun x => decide (x ∉ sel))).take (t - sel.length) := by
  intro xs
  induction xs with
  | nil => intro sel _; simp [fillFrom]
  | cons x rest ih =>
    intro sel hnd
    have hxr := (List.nodup_cons.mp hnd).1
    have hndr := (List.nodup_cons.mp hnd).2
    unfold fillFrom
    split_ifs with h1 h2
    · have : t - sel.length = 0 := by omega
      simp [this]
    · rw [List.filter_cons_of_neg (by simpa using h2)]
      exact ih sel hndr
    · rw [ih (sel ++ [x]) hndr]
      rw [List.filter_cons_of_pos (by simpa using h2)]
      have hfeq : rest.filter (fun y => decide (y ∉ sel ++ [x]))
          = rest.filter (fun y => decide (y ∉ sel)) := by
        refine List.filter_congr ?_
        intro y hy
        have hyx : y ≠ x := fun hc => hxr (hc ▸ hy)
        simp [hyx]
      rw [hfeq]
      have harith : t - sel.length = (t - (sel ++ [x]).length) + 1 := by
        simp only [List.length_append, List.length_cons, List.length_nil]
        omega
      rw [harith, List.take_succ_cons, List.append_assoc]
      simp

lemma wrongSortLe_trans (a b c : String × String × Bool)
    (hab : wrongSortLe a b) (hbc : wrongSortLe b c) : wrongSortLe a c := by
  unfold wrongSortLe at *
  rcases Bool.eq_false_or_eq_true a.2.2 with ha | ha <;>
    rcases Bool.eq_false_or_eq_true b.2.2 with hb | hb <;>
      rcases Bool.eq_false_or_eq_true c.2.2 with hc | hc <;>
        simp [ha, hb, hc] at * <;>
          exact le_trans hbc hab

lemma wrongSortLe_total (a b : String × String × Bool) :
    wrongSortLe a b || wrongSortLe b a := by
  unfold wrongSortLe
  rcases Bool.eq_false_or_eq_true a.2.2 with ha | ha <;>
    rcases Bool.eq_false_or_eq_true b.2.2 with hb | hb <;>
      simp [ha, hb] <;>
        exact le_total _ _

lemma wrongSortLe_unfold (a b : String × String × Bool)
    (h : wrongSortLe a b) :
    (a.2.2 = false → b.2.2 = false)
      ∧ (a.2.2 = b.2.2 → b.2.1.data ≤ a.2.1.data) := by
  unfold wrongSortLe at h
  rcases Bool.eq_false_or_eq_true a.2.2 with ha | ha <;>
    rcases Bool.eq_false_or_eq_true b.2.2 with hb | hb <;>
      simp [ha, hb] at h ⊢ <;> exact h

lemma mem_leastIds_isSome (pool : List String)
    (statsMap : String → Option SessAttemptStats) (y : String)
    (h : y ∈ ((leastAnsweredOf pool statsMap).mergeSort
      (fun a b => decide (a.2 ≤ b.2))).map (fun p => p.1)) :
    (statsMap y).isSome := by
  obtain ⟨p, hp, rfl⟩ := List.mem_map.mp h
  rw [List.mem_mergeSort] at hp
  obtain ⟨qId, hq, heq⟩ := List.mem_filterMap.mp hp
  cases hst : statsMap qId with
  | none =>
    rw [hst] at heq
    exact Option.noConfusion heq
  | some st =>
    rw [hst] at heq
    have h2 := Option.some.inj heq
    subst h2
    simp [hst]

lemma mem_neverSeen_take_none (pool : List String)
    (statsMap : String → Option SessAttemptStats) (t : Nat) (y : String)
    (h : y ∈ (neverSeenOf pool statsMap).take t) : statsMap y = none := by
  have hy := List.mem_of_mem_take h
  have := List.mem_filter.mp hy
  exact of_decide_eq_true this.2

/-- C6 (amended): the Session Assembler's cascade fills the quota in the
claimed stage order, except that stage 1 takes never-attempted items in pool
(catalog) order, not random order. Precisely, for every pool of distinct
ids: the least-answered list is sorted by ascending total-attempt count; the
wrong-answers list is sorted recent-failure-first with ties broken by
last-attempt timestamp descending; and the selection is exactly the
never-attempted ids in pool order (stage 1, truncated at the target),
followed by the attempt-count-sorted ids (stage 2, truncated), followed by
the wrong-sorted ids not already selected (stage 3, truncated), followed —
only if the quota is still unmet — by the Fisher-Yates shuffle of the pool
restricted to ids not already selected (stage 4): the random source affects
the fill of stage 4 alone. -/
theorem C6_cascade_stage_structure (pool : List String)
    (statsMap : String → Option SessAttemptStats) (target : Nat) (rng : Nat → ℚ)
    (hnd : pool.Nodup) :
    ((leastAnsweredOf pool statsMap).mergeSort
        (fun a b => decide (a.2 ≤ b.2))).Pairwise (fun a b => a.2 ≤ b.2)
    ∧ ((wrongAnswersOf pool statsMap).mergeSort wrongSortLe).Pairwise
        (fun a b => (a.2.2 = false → b.2.2 = false)
          ∧ (a.2.2 = b.2.2 → b.2.1.data ≤ a.2.1.data))
    ∧ (let p1 := (neverSeenOf pool statsMap).take target
       let la := ((leastAnsweredOf pool statsMap).mergeSort
         (fun a b => decide (a.2 ≤ b.2))).map (fun p => p.1)
       let wa := ((wrongAnswersOf pool statsMap).mergeSort wrongSortLe).map
         (fun p => p.1)
       let p2 := la.take (target - p1.length)
       let p3 := (wa.filter (fun x => decide (x ∉ p1 ++ p2))).take
         (target - (p1 ++ p2).length)
       let p4 := if (p1 ++ p2 ++ p3).length < target then
           ((fisherYates pool rng).filter
             (fun x => decide (x ∉ p1 ++ p2 ++ p3))).take
             (target - (p1 ++ p2 ++ p3).length)
         else []
       selectQuestionsFromPool pool statsMap target rng = p1 ++ p2 ++ p3 ++ p4) := by
  refine ⟨?_, ?_, ?_⟩
  · exact (List.sorted_mergeSort
      (by intro a b c hab hbc
          simp only [decide_eq_true_eq] at *
          omega)
      (by intro a b
          rcases Nat.le_total a.2 b.2 with h | h <;> simp [h])
      (leastAnsweredOf pool statsMap)).imp (fun h => of_decide_eq_true h)
  · exact (List.sorted_mergeSort wrongSortLe_trans wrongSortLe_total
      (wrongAnswersOf pool statsMap)).imp (fun h => wrongSortLe_unfold _ _ h)
  · dsimp only
    set ns := neverSeenOf pool statsMap with hns
    set la := ((leastAnsweredOf pool statsMap).mergeSort
      (fun a b => decide (a.2 ≤ b.2))).map (fun p => p.1) with hla
    set wa := ((wrongAnswersOf pool statsMap).mergeSort wrongSortLe).map
      (fun p => p.1) with hwa
    set s1 := fillFrom target [] ns with hs1
    set s2 := fillFrom target s1 la with hs2
    set s3 := fillFrom target s2 wa with hs3
    have hresult : selectQuestionsFromPool pool statsMap target rng
        = if s3.length < target then fillFrom target s3 (fisherYates pool rng)
          else s3 := rfl
    have hlaNodup : la.Nodup := by
      have hperm : la.Perm ((leastAnsweredOf pool statsMap).map (fun p => p.1)) :=
        (List.mergeSort_perm (leastAnsweredOf pool statsMap) _).map _
      exact hperm.nodup_iff.mpr
        (List.Nodup.sublist (leastIds_sublist pool statsMap) hnd)
    have hwaNodup : wa.Nodup := by
      have hperm : wa.Perm ((wrongAnswersOf pool statsMap).map (fun p => p.1)) :=
        (List.mergeSort_perm (wrongAnswersOf pool statsMap) _).map _
      exact hperm.nodup_iff.mpr
        (List.Nodup.sublist (wrongIds_sublist pool statsMap) hnd)
    have hs1take : s1 = ns.take target := by
      rw [hs1, fillFrom_disjoint_take target ns [] (hnd.filter _) (by simp)]
      simp
    have hdisj2 : ∀ x ∈ la, x ∉ s1 := by
      intro x hx hxs
      rw [hs1take] at hxs
      have h1 := mem_leastIds_isSome pool statsMap x hx
      have h2 := mem_neverSeen_take_none pool statsMap target x hxs
      rw [h2] at h1
      simp at h1
    have he2 : s2 = s1 ++ la.take (target - s1.length) :=
      hs2.trans (fillFrom_disjoint_take target la s1 hlaNodup hdisj2)
    have he3 : s3 = s2 ++ (wa.filter (fun x => decide (x ∉ s2))).take
        (target - s2.length) :=
      hs3.trans (fillFrom_filter_take target wa s2 hwaNodup)
    rw [hresult, ← hs1take, ← he2, ← he3]
    by_cases hc : s3.length < target
    · rw [if_pos hc, if_pos hc]
      have hfyn : (fisherYates pool rng).Nodup :=
        ((fisherYates_perm pool rng).nodup_iff).mpr hnd
      exact fillFrom_filter_take target (fisherYates pool rng) s3 hfyn
    · rw [if_neg hc, if_neg hc, List.append_nil]

/-- C6 witness: pool ["a","b","c"] with "a" never attempted, "b" carrying a
recent wrong attempt and "c" answered once correctly, target 2: the cascade
structure theorem applies, so the two sorted buckets are sorted as claimed
and the selection decomposes into the four stage contributions. -/
theorem C6_cascade_stage_structure_witness :
    (["a", "b", "c"] : List String).Nodup ∧
    (let m : String → Option SessAttemptStats := fun q =>
       if q = "a" then none
       else if q = "b" then some ⟨"b", 2, 1, "2024-01-02", true⟩
       else if q = "c" then some ⟨"c", 1, 1, "2024-01-01", false⟩
       else none
     ((leastAnsweredOf ["a", "b", "c"] m).mergeSort
        (fun a b => decide (a.2 ≤ b.2))).Pairwise (fun a b => a.2 ≤ b.2)
     ∧ ((wrongAnswersOf ["a", "b", "c"] m).mergeSort wrongSortLe).Pairwise
        (fun a b => (a.2.2 = false → b.2.2 = false)
          ∧ (a.2.2 = b.2.2 → b.2.1.data ≤ a.2.1.data))
     ∧ (let p1 := (neverSeenOf ["a", "b", "c"] m).take 2
        let la := ((leastAnsweredOf ["a", "b", "c"] m).mergeSort
          (fun a b => decide (a.2 ≤ b.2))).map (fun p => p.1)
        let wa := ((wrongAnswersOf ["a", "b", "c"] m).mergeSort wrongSortLe).map
          (fun p => p.1)
        let p2 := la.take (2 - p1.length)
        let p3 := (wa.filter (fun x => decide (x ∉ p1 ++ p2))).take
          (2 - (p1 ++ p2).length)
        let p4 := if (p1 ++ p2 ++ p3).length < 2 then
            ((fisherYates ["a", "b", "c"] (fun _ => 0)).filter
              (fun x => decide (x ∉ p1 ++ p2 ++ p3))).take
              (2 - (p1 ++ p2 ++ p3).length)
          else []
        selectQuestionsFromPool ["a", "b", "c"] m 2 (fun _ => 0)
          = p1 ++ p2 ++ p3 ++ p4)) :=
  ⟨by decide, C6_cascade_stage_structure ["a", "b", "c"]
    (fun q =>
      if q = "a" then none
      else if q = "b" then some ⟨"b", 2, 1, "2024-01-02", true⟩
      else if q = "c" then some ⟨"c", 1, 1, "2024-01-01", false⟩
      else none)
    2 (fun _ => 0) (by decide)⟩

/-- C6 counterexample: with pool ["a","b"], both never attempted, target 1
and the draw stream 0, the code selects ["a"] — stage 1 takes never-seen
ids in pool order and never consults the random source — while the cascade
with §4.6's "never-attempted items, in random order" (stage 1 shuffled with
the same stream) selects ["b"]: the claimed random order is refuted. -/
theorem C6_counterexample_stage1_not_random :
    selectQuestionsFromPool ["a", "b"] (fun _ => none) 1 (fun _ => 0) = ["a"] ∧
    selectQuestionsFromPoolSpecOrder ["a", "b"] (fun _ => none) 1 (fun _ => 0)
      = ["b"] := by
  constructor
  · simp +decide [selectQuestionsFromPool, neverSeenOf, leastAnsweredOf,
      wrongAnswersOf, fillFrom, fisherYates, fisherYatesAux, listSwap,
      List.mergeSort]
  · simp +decide [selectQuestionsFromPoolSpecOrder, neverSeenOf,
      leastAnsweredOf, wrongAnswersOf, fillFrom, fisherYates, fisherYatesAux,
      listSwap, List.mergeSort]

lemma determinePhase_all_none (ids : List String) (h : ids ≠ []) :
    determinePhase ids (fun _ => none) = .coverage := by
  unfold determinePhase
  dsimp only
  rw [if_pos]
  have hcnt : List.countP (fun id => decide ((none : Option QuestionStats) = none)) ids
      = ids.length := List.countP_eq_length.mpr (fun a _ => by simp)
  rw [hcnt]
  exact List.length_pos.mpr h

lemma categorize_unseen_all (ids : List String) :
    (categorizeQuestions ids (fun _ => none)).unseen = ids := by
  show ids.filter (fun id => decide (levelOf (fun _ => none) id = .unseen)) = ids
  exact List.filter_eq_self.mpr (fun a _ => by simp [levelOf])

lemma nextQuestionRoute_unseen_step (catalog : List Question) (order : List String)
    (k : Nat) (rng : Nat → ℚ) (rF rW : ℚ)
    (hcat : catalog ≠ []) (hk : k < order.length)
    (hall : ∀ id ∈ order, id ∈ catalog.map (fun q => q.id)) :
    ∃ q, nextQuestionRoute catalog none (fun _ => none) [] none (some (order, k))
        rng rF rW = .selected q (some order) (some (k + 1)) ∧
      q.id = order.get ⟨k, hk⟩ := by
  have hmem : order.get ⟨k, hk⟩ ∈ order := order.get_mem _ _
  obtain ⟨q, hfind, hqid, _⟩ := find?_of_mem_ids catalog _ (hall _ hmem)
  have hscan : coverageScan catalog order [] k = some (q, k) := by
    unfold coverageScan
    rw [dif_pos hk]
    simp only [List.not_mem_nil, if_false]
    rw [hfind]
  have hphase := determinePhase_all_none (catalog.map (fun q => q.id))
    (by simpa using hcat)
  refine ⟨q, ?_, hqid⟩
  unfold nextQuestionRoute questionsCoverage
  simp [hphase, hscan, hcat]

/-- Experiment harness for the coverage-completeness property: run `n`
consecutive next-question requests against a fixed catalog and attempt log,
threading the returned coverage cursor into the following call, and collect
the selected ids in order. -/
def coverageRun (catalog : List Question) (statsMap : String → Option QuestionStats)
    (rng : Nat → ℚ) (rF rW : ℚ) : Nat → Option (List String × Nat) → List String
  | 0, _ => []
  | n + 1, st =>
    match nextQuestionRoute catalog none statsMap [] none st rng rF rW with
    | .selected q o i =>
      q.id :: coverageRun catalog statsMap rng rF rW n
        (match o, i with
          | some o2, some i2 => some (o2, i2)
          | _, _ => none)
    | _ => []

lemma coverageRun_succ (catalog : List Question)
    (statsMap : String → Option QuestionStats) (rng : Nat → ℚ) (rF rW : ℚ)
    (n : Nat) (st : Option (List String × Nat)) :
    coverageRun catalog statsMap rng rF rW (n + 1) st
      = match nextQuestionRoute catalog none statsMap [] none st rng rF rW with
        | .selected q o i =>
          q.id :: coverageRun catalog statsMap rng rF rW n
            (match o, i with
              | some o2, some i2 => some (o2, i2)
              | _, _ => none)
        | _ => [] := rfl

lemma coverageRun_drop (catalog : List Question) (order : List String)
    (rng : Nat → ℚ) (rF rW : ℚ) (hcat : catalog ≠ [])
    (hall : ∀ id ∈ order, id ∈ catalog.map (fun q => q.id)) :
    ∀ (n k : Nat), k + n = order.length →
      coverageRun catalog (fun _ => none) rng rF rW n (some (order, k))
        = order.drop k := by
  intro n
  induction n with
  | zero =>
    intro k hk
    rw [List.drop_eq_nil_of_le (by omega)]
    rfl
  | succ n ih =>
    intro k hk
    have hklt : k < order.length := by omega
    obtain ⟨q, hroute, hqid⟩ :=
      nextQuestionRoute_unseen_step catalog order k rng rF rW hcat hklt hall
    rw [coverageRun_succ, hroute]
    dsimp only
    rw [ih (k + 1) (by omega), hqid]
    exact (List.drop_eq_get_cons hklt).symm

/-- C4: coverage completeness. For a catalog of N items with distinct ids,
no attempts recorded (every item unseen), empty cooling hints, and the
returned cursor threaded into each following call, N consecutive
next-question calls return a permutation of the catalog ids — each item
exactly once, no repeat before all N are visited. -/
theorem C4_coverage_completeness (catalog : List Question) (rng : Nat → ℚ)
    (rF rW : ℚ) (hcat : catalog ≠ [])
    (hnd : (catalog.map (fun q => q.id)).Nodup) :
    (coverageRun catalog (fun _ => none) rng rF rW catalog.length none).Perm
      (catalog.map (fun q => q.id)) ∧
    (coverageRun catalog (fun _ => none) rng rF rW catalog.length none).Nodup := by
  have hperm0 : (fisherYates
      ((categorizeQuestions (catalog.map (fun q => q.id)) (fun _ => none)).unseen)
      rng).Perm (catalog.map (fun q => q.id)) := by
    have h1 := fisherYates_perm
      ((categorizeQuestions (catalog.map (fun q => q.id)) (fun _ => none)).unseen) rng
    nth_rewrite 2 [categorize_unseen_all] at h1
    exact h1
  set order := fisherYates
    ((categorizeQuestions (catalog.map (fun q => q.id)) (fun _ => none)).unseen)
    rng with horder
  have hall : ∀ id ∈ order, id ∈ catalog.map (fun q => q.id) := fun id hid =>
    hperm0.mem_iff.mp hid
  have hlen : order.length = catalog.length := by
    rw [hperm0.length_eq, List.length_map]
  suffices hrun : coverageRun catalog (fun _ => none) rng rF rW catalog.length none
      = order by
    rw [hrun]
    exact ⟨hperm0, hperm0.nodup_iff.mpr hnd⟩
  cases hn : catalog.length with
  | zero => exact absurd (List.length_eq_zero.mp hn) hcat
  | succ m =>
    have hstep0 : nextQuestionRoute catalog none (fun _ => none) [] none none
        rng rF rW
        = nextQuestionRoute catalog none (fun _ => none) [] none
            (some (order, 0)) rng rF rW := rfl
    have h0lt : 0 < order.length := by omega
    obtain ⟨q, hroute, hqid⟩ :=
      nextQuestionRoute_unseen_step catalog order 0 rng rF rW hcat h0lt hall
    rw [coverageRun_succ, hstep0, hroute]
    dsimp only
    rw [coverageRun_drop catalog order rng rF rW hcat hall m 1 (by omega), hqid]
    have hd := List.drop_eq_get_cons (l := order) (n := 0) h0lt
    rw [List.drop_zero] at hd
    exact hd.symm

/-- C4 witness: two unseen questions with distinct ids. -/
theorem C4_coverage_completeness_witness :
    (coverageRun [⟨"a", "s"⟩, ⟨"b", "s"⟩] (fun _ => none) (fun _ => 0) 0 0 2
        none).Perm
      (([⟨"a", "s"⟩, ⟨"b", "s"⟩] : List Question).map (fun q => q.id)) ∧
    (coverageRun [⟨"a", "s"⟩, ⟨"b", "s"⟩] (fun _ => none) (fun _ => 0) 0 0 2
        none).Nodup :=
  C4_coverage_completeness [⟨"a", "s"⟩, ⟨"b", "s"⟩] (fun _ => 0) 0 0
    (by simp) (by decide)

/-- The section a session attempt maps to: its question looked up in the
catalog (as the PATCH breakdown loop does), `none` when the id is unknown. -/
def sectionOfAttempt (catalog : List Question) (a : SessionAttempt) : Option String :=
  (catalog.find? (fun q => decide (q.id = a.questionId))).map (fun q => q.sec)

/-- Number of a session's attempts falling in section `s`. -/
def specSectionTotal (catalog : List Question) (attempts : List SessionAttempt)
    (s : String) : Nat :=
  (attempts.filter (fun a => decide (sectionOfAttempt catalog a = some s))).length

/-- Number of a session's correct attempts falling in section `s`. -/
def specSectionCorrect (catalog : List Question) (attempts : List SessionAttempt)
    (s : String) : Nat :=
  (attempts.filter (fun a =>
    decide (sectionOfAttempt catalog a = some s) && a.isCorrect)).length

/-- The `{total, correct}` pair recorded for section `s` in a tally list
(first entry with that key, as `sectionStats[question.section]` reads it). -/
def tallyLookup (l : List (String × Nat × Nat)) (s : String) : Option (Nat × Nat) :=
  (l.find? (fun e => decide (e.1 = s))).map (fun e => e.2)

lemma sectionTallies_cons_none (catalog : List Question) (a : SessionAttempt)
    (rest : List SessionAttempt) (acc : List (String × Nat × Nat))
    (hfind : catalog.find? (fun q => decide (q.id = a.questionId)) = none) :
    sectionTallies catalog (a :: rest) acc = sectionTallies catalog rest acc := by
  simp only [sectionTallies]
  rw [hfind]

lemma sectionTallies_cons_some (catalog : List Question) (a : SessionAttempt)
    (rest : List SessionAttempt) (acc : List (String × Nat × Nat)) (q : Question)
    (hfind : catalog.find? (fun q => decide (q.id = a.questionId)) = some q) :
    sectionTallies catalog (a :: rest) acc = sectionTallies catalog rest
      (if (acc.find? (fun e => decide (e.1 = q.sec))).isSome then
        acc.map (fun e =>
          if e.1 = q.sec then
            (e.1, e.2.1 + 1, e.2.2 + (if a.isCorrect then 1 else 0))
          else e)
      else acc ++ [(q.sec, 1, if a.isCorrect then 1 else 0)]) := by
  simp only [sectionTallies]
  rw [hfind]

lemma tallyLookup_map_upd (acc : List (String × Nat × Nat)) (sec s : String)
    (inc : Nat) :
    tallyLookup (acc.map (fun e =>
        if e.1 = sec then (e.1, e.2.1 + 1, e.2.2 + inc) else e)) s
      = if s = sec then
          (tallyLookup acc s).map (fun tc => (tc.1 + 1, tc.2 + inc))
        else tallyLookup acc s := by
  unfold tallyLookup
  rw [List.find?_map]
  have hpred : ((fun e : String × Nat × Nat => decide (e.1 = s)) ∘
      (fun e : String × Nat × Nat =>
        if e.1 = sec then (e.1, e.2.1 + 1, e.2.2 + inc) else e))
      = (fun e : String × Nat × Nat => decide (e.1 = s)) := by
    funext e
    by_cases h : e.1 = sec <;> simp [Function.comp, h]
  rw [hpred]
  cases hfind : acc.find? (fun e : String × Nat × Nat => decide (e.1 = s)) with
  | none => by_cases hs : s = sec <;> simp [hs]
  | some e0 =>
    have he0 : e0.1 = s := by simpa using List.find?_some hfind
    by_cases hs : s = sec
    · subst hs
      simp [he0]
    · have hne : e0.1 ≠ sec := by rw [he0]; exact hs
      simp [hs, hne]

lemma tallyLookup_append_new (acc : List (String × Nat × Nat)) (sec s : String)
    (tc : Nat × Nat)
    (hnone : acc.find? (fun e => decide (e.1 = sec)) = none) :
    tallyLookup (acc ++ [(sec, tc)]) s
      = if s = sec then some tc else tallyLookup acc s := by
  unfold tallyLookup
  rw [List.find?_append]
  by_cases hs : s = sec
  · subst hs
    rw [hnone]
    simp
  · cases hfind : acc.find? (fun e : String × Nat × Nat => decide (e.1 = s)) with
    | none =>
      have hne : sec ≠ s := fun hc => hs hc.symm
      simp [hfind, hne, hs]
    | some e0 => simp [hfind, hs]

lemma specSectionTotal_cons (catalog : List Question) (a : SessionAttempt)
    (rest : List SessionAttempt) (s : String) :
    specSectionTotal catalog (a :: rest) s
      = (if sectionOfAttempt catalog a = some s then 1 else 0)
        + specSectionTotal catalog rest s := by
  unfold specSectionTotal
  rw [List.filter_cons]
  by_cases h : sectionOfAttempt catalog a = some s
  · simp [h]
    omega
  · simp [h]

lemma specSectionCorrect_cons (catalog : List Question) (a : SessionAttempt)
    (rest : List SessionAttempt) (s : String) :
    specSectionCorrect catalog (a :: rest) s
      = (if sectionOfAttempt catalog a = some s then
          (if a.isCorrect then 1 else 0) else 0)
        + specSectionCorrect catalog rest s := by
  unfold specSectionCorrect
  rw [List.filter_cons]
  by_cases h : sectionOfAttempt catalog a = some s
  · by_cases hc : a.isCorrect = true
    · simp [h, hc]
      omega
    · simp [h, hc]
  · simp [h]

lemma sectionTallies_lookup (catalog : List Question) :
    ∀ (attempts : List SessionAttempt) (acc : List (String × Nat × Nat)) (s : String),
      tallyLookup (sectionTallies catalog attempts acc) s
        = match tallyLookup acc s with
          | some tc => some (tc.1 + specSectionTotal catalog attempts s,
                             tc.2 + specSectionCorrect catalog attempts s)
          | none =>
            if specSectionTotal catalog attempts s = 0 then none
            else some (specSectionTotal catalog attempts s,
                       specSectionCorrect catalog attempts s) := by
  intro attempts
  induction attempts with
  | nil =>
    intro acc s
    cases htl : tallyLookup acc s <;>
      simp [sectionTallies, specSectionTotal, specSectionCorrect, htl]
  | cons a rest ih =>
    intro acc s
    cases hfind : catalog.find? (fun q => decide (q.id = a.questionId)) with
    | none =>
      have hsec : sectionOfAttempt catalog a = none := by
        simp [sectionOfAttempt, hfind]
      rw [sectionTallies_cons_none catalog a rest acc hfind, ih acc s,
        specSectionTotal_cons, specSectionCorrect_cons, hsec]
      simp
    | some q =>
      have hsec : sectionOfAttempt catalog a = some q.sec := by
        simp [sectionOfAttempt, hfind]
      rw [sectionTallies_cons_some catalog a rest acc q hfind]
      by_cases hin : (acc.find? (fun e => decide (e.1 = q.sec))).isSome
      · rw [if_pos hin, ih _ s, tallyLookup_map_upd acc q.sec s _,
          specSectionTotal_cons, specSectionCorrect_cons, hsec]
        by_cases hs : s = q.sec
        · subst hs
          have hsome : (tallyLookup acc q.sec).isSome := by
            unfold tallyLookup
            simpa using hin
          obtain ⟨tc, htc⟩ := Option.isSome_iff_exists.mp hsome
          rw [if_pos rfl, htc]
          by_cases hc : a.isCorrect = true <;> simp [hc] <;> omega
        · have hne : ¬ ((some q.sec : Option String) = some s) := by
            simp
            exact fun hc => hs hc.symm
          rw [if_neg hs]
          simp only [hne, if_false]
          cases htl : tallyLookup acc s <;> simp [htl]
      · rw [if_neg hin, ih _ s,
          tallyLookup_append_new acc q.sec s (1, if a.isCorrect then 1 else 0)
            (Option.not_isSome_iff_eq_none.mp hin),
          specSectionTotal_cons, specSectionCorrect_cons, hsec]
        by_cases hs : s = q.sec
        · subst hs
          have htl : tallyLookup acc q.sec = none := by
            unfold tallyLookup
            rw [Option.not_isSome_iff_eq_none.mp hin]
            rfl
          rw [if_pos rfl, htl]
          by_cases hc : a.isCorrect = true <;> simp [hc]
        · have hne : ¬ ((some q.sec : Option String) = some s) := by
            simp
            exact fun hc => hs hc.symm
          rw [if_neg hs]
          simp only [hne, if_false]
          cases htl : tallyLookup acc s <;> simp [htl]

lemma sectionPassed_iff (t c : Nat) (ht : 0 < t) :
    sectionPassed (t, c) = true ↔ 6 * t ≤ 10 * c := by
  unfold sectionPassed passThreshold
  rw [decide_eq_true_eq]
  have htq : (0 : ℚ) < (t : ℚ) := by exact_mod_cast ht
  rw [ge_iff_le, div_le_div_iff (by norm_num) htq]
  constructor
  · intro h
    have h2 : (6 * t : Nat) ≤ c * 10 := by exact_mod_cast h
    omega
  · intro h
    have h2 : (6 * t : Nat) ≤ c * 10 := by omega
    exact_mod_cast h2

/-- C7: the session-completion aggregation returns the overall totals
(`total` = number of the session's attempts, `correct` = number answered
correctly, `incorrect` the difference) and a per-section breakdown whose
entry for each section holds exactly that section's attempt and correct
counts; and the summary's per-section pass indicator, computed from that
breakdown, holds exactly when the section's accuracy reaches the fixed 60%
threshold. -/
theorem C7_session_complete_totals (catalog : List Question)
    (attempts : List SessionAttempt) :
    (patchSessionComplete catalog attempts).total = attempts.length ∧
    (patchSessionComplete catalog attempts).correct
      = attempts.countP (fun a => a.isCorrect) ∧
    (patchSessionComplete catalog attempts).correct
      + (patchSessionComplete catalog attempts).incorrect = attempts.length ∧
    (∀ s : String,
      tallyLookup (patchSessionComplete catalog attempts).bySection s
        = if specSectionTotal catalog attempts s = 0 then none
          else some (specSectionTotal catalog attempts s,
                     specSectionCorrect catalog attempts s)) ∧
    (∀ t c : Nat, 0 < t → (sectionPassed (t, c) = true ↔ 6 * t ≤ 10 * c)) := by
  refine ⟨rfl, rfl, ?_, ?_, ?_⟩
  · have hle := List.countP_le_length (p := fun a : SessionAttempt => a.isCorrect)
      (l := attempts)
    simp only [patchSessionComplete]
    omega
  · intro s
    have h := sectionTallies_lookup catalog attempts [] s
    have h0 : tallyLookup [] s = none := rfl
    rw [h0] at h
    simpa [patchSessionComplete] using h
  · intro t c ht
    exact sectionPassed_iff t c ht
